import Mathlib

/-!
# Verification of the `piecetable` crate (src/lib.rs)

Shallow embedding of the piece-table text buffer from `src/lib.rs`.

Modelling conventions:
* Rust `String` text is modelled as `List Char`; positions and lengths are
  offsets into that list (the source treats them as raw byte offsets and the
  crate never inspects character boundaries, so the offset arithmetic is
  identical).
* `usize` arithmetic is modelled with `Nat`.  Overflow behaviour is analysed
  separately with the `chkAdd`/`chkSub` checked-arithmetic variants below,
  which return `none` exactly where a debug build of the source would trap.
* A Rust `String` buffer carries an allocated capacity which the source reads
  via `buffer.capacity()`.  `Buffer` therefore keeps an explicit `cap` field:
  `String::with_capacity(n)` is modelled as capacity exactly `n`, and the
  seed string of `from_string` as capacity equal to its length.  Appends in
  the source never exceed the reserved capacity (`buffer_with_capacity`
  guarantees strictly more free room than needed), so `cap` is unchanged by
  appends.
* Rust's in-place mutation is modelled by state passing.  `Vec` indexing that
  would trap out of bounds is modelled with `List.getD`; every such access is
  proved in bounds below, so the default value is never consulted.
* The `while` loop of `delete` is modelled by the structurally recursive
  `deleteLoop` driven by a fuel argument.  `delete` supplies the fuel
  `pieces.length + len`, which dominates the loop variant
  `pieces.length - index + len` (each iteration either removes a piece or
  zeroes `len`); lemma `deleteLoop_fuel` below proves the result is the same
  for every sufficient fuel, so the fuel is an implementation artifact only.
-/

/-- A section of the buffer representing some text (Rust `struct Piece`). -/
structure Piece where
  buffer_index : Nat
  start : Nat
  «end» : Nat
deriving DecidableEq, Repr

/-- Length of the piece (Rust `Piece::len`): `self.end - self.start`. -/
def Piece.len (p : Piece) : Nat := p.«end» - p.start

/-- Rust `Piece::before`: sub-piece running from `start` to `start+offset`
(the source writes the end as `offset + self.start`). -/
def Piece.before (p : Piece) (offset : Nat) : Piece :=
  { buffer_index := p.buffer_index, start := p.start, «end» := offset + p.start }

/-- Rust `Piece::after`: sub-piece running from `start+offset` to `end`. -/
def Piece.after (p : Piece) (offset : Nat) : Piece :=
  { buffer_index := p.buffer_index, start := p.start + offset, «end» := p.«end» }

/-- Rust `Piece::merge`: mutating merge of `piece` into `self`, modelled as
returning the updated piece together with the `bool` result. -/
def Piece.merge (q piece : Piece) : Piece × Bool :=
  if piece.buffer_index = q.buffer_index ∧ piece.start = q.«end» then
    ({ q with «end» := piece.«end» }, true)
  else (q, false)

/-- Rust `type Buffer = String`: character data plus allocated capacity. -/
structure Buffer where
  data : List Char
  cap : Nat
deriving DecidableEq, Repr

/-- Rust `struct PieceTable`. -/
structure PieceTable where
  buffers : List Buffer
  pieces : List Piece
deriving DecidableEq, Repr

/-- Rust `struct Location`: a piece index and an offset into that piece. -/
structure Location where
  piece_index : Nat
  offset : Nat
deriving DecidableEq, Repr

/-- Rust `Location::new`. -/
def Location.new (index offset : Nat) : Location :=
  { piece_index := index, offset := offset }

/-- Rust `PieceTable::new`: empty table. -/
def PieceTable.new : PieceTable := { buffers := [], pieces := [] }

/-- Rust `PieceTable::from_string`: one buffer holding `s`, one piece spanning
it whole.  The seed string's capacity is modelled as its length. -/
def PieceTable.from_string (s : List Char) : PieceTable :=
  { pieces := [{ buffer_index := 0, start := 0, «end» := s.length }],
    buffers := [{ data := s, cap := s.length }] }

/-- The fold computing the total length of all buffers, as in `add_buffer`. -/
def bufLensSum (buffers : List Buffer) : Nat :=
  buffers.foldl (fun sum buffer => sum + buffer.data.length) 0

/-- Rust `PieceTable::add_buffer`: push a fresh buffer whose capacity is the
larger of `min_capacity` and the total length of the existing buffers. -/
def PieceTable.add_buffer (pt : PieceTable) (min_capacity : Nat) : PieceTable :=
  { pt with
    buffers := pt.buffers ++
      [{ data := [], cap := max min_capacity (bufLensSum pt.buffers) }] }

/-- The loop body of Rust `PieceTable::locate`: walk the pieces accumulating
`offset`, with the two early returns of the source. -/
def locateGo (position : Nat) : List Piece → Nat → Nat → Location
  | [], _, index => Location.new index 0
  | piece :: rest, offset, index =>
    let offset := offset + piece.len
    if position < offset then
      Location.new index (piece.len - (offset - position))
    else if position = offset then
      Location.new (index + 1) 0
    else
      locateGo position rest offset (index + 1)

/-- Rust `PieceTable::locate`. -/
def PieceTable.locate (pt : PieceTable) (position : Nat) : Location :=
  locateGo position pt.pieces 0 0

/-- Rust `PieceTable::split`.  Returns the updated table together with the
insertion index (the source mutates `self` and returns the index). -/
def PieceTable.split (pt : PieceTable) (loc : Location) (gap : Nat) :
    PieceTable × Nat :=
  match pt.pieces.get? loc.piece_index with
  | some piece =>
    if loc.offset = 0 then
      let afterPiece := piece.after gap
      if afterPiece.len > 0 then
        ({ pt with pieces := pt.pieces.set loc.piece_index afterPiece },
          loc.piece_index)
      else
        ({ pt with pieces := pt.pieces.eraseIdx loc.piece_index },
          loc.piece_index)
    else
      let pieces :=
        if loc.offset < piece.len then
          let ps := pt.pieces.set loc.piece_index (piece.before loc.offset)
          if gap + loc.offset < piece.len then
            ps.insertIdx (loc.piece_index + 1) (piece.after (loc.offset + gap))
          else ps
        else pt.pieces
      ({ pt with pieces := pieces }, loc.piece_index + 1)
  | none => (pt, loc.piece_index)

/-- Rust `PieceTable::buffer_with_capacity`: reuse the last buffer when its
free room strictly exceeds `capacity`, else `add_buffer`; returns the updated
table and the index of the last buffer (the source returns the index and a
mutable reference). -/
def PieceTable.buffer_with_capacity (pt : PieceTable) (capacity : Nat) :
    PieceTable × Nat :=
  let pt :=
    if (pt.buffers.getLast?.filter fun buffer =>
        decide (capacity < buffer.cap - buffer.data.length)).isNone then
      pt.add_buffer capacity
    else pt
  (pt, pt.buffers.length - 1)

/-- Rust `PieceTable::insert`. -/
def PieceTable.insert (pt : PieceTable) (position : Nat) (s : List Char) :
    PieceTable :=
  let r := pt.buffer_with_capacity s.length
  let pt1 := r.1
  let buffer_index := r.2
  let start := (pt1.buffers.getD buffer_index ⟨[], 0⟩).data.length
  let pt2 :=
    { pt1 with
      buffers := pt1.buffers.set buffer_index
        (let b := pt1.buffers.getD buffer_index ⟨[], 0⟩
         { b with data := b.data ++ s }) }
  let piece : Piece :=
    { buffer_index := buffer_index, start := start, «end» := start + s.length }
  let loc := pt2.locate position
  let r2 := pt2.split loc 0
  let pt3 := r2.1
  let index := r2.2
  if index = 0 then
    { pt3 with pieces := pt3.pieces.insertIdx index piece }
  else
    let m := (pt3.pieces.getD (index - 1) ⟨0, 0, 0⟩).merge piece
    if m.2 then { pt3 with pieces := pt3.pieces.set (index - 1) m.1 }
    else { pt3 with pieces := pt3.pieces.insertIdx index piece }

/-- The `while` loop of Rust `PieceTable::delete`, driven by fuel (see the
module comment): while `len > 0` and a piece remains at `index`, close a gap
of `min len (piece length)` there. -/
def deleteLoop : PieceTable → Nat → Nat → Nat → PieceTable
  | pt, _, _, 0 => pt
  | pt, index, len, fuel + 1 =>
    if 0 < len ∧ index < pt.pieces.length then
      let gap := min len (pt.pieces.getD index ⟨0, 0, 0⟩).len
      deleteLoop (pt.split (Location.new index 0) gap).1 index (len - gap) fuel
    else pt

/-- Rust `PieceTable::delete`. -/
def PieceTable.delete (pt : PieceTable) (position len : Nat) : PieceTable :=
  let pos := pt.locate position
  if 0 < pos.offset then
    let gap := min len ((pt.pieces.getD pos.piece_index ⟨0, 0, 0⟩).len - pos.offset)
    let pt1 := (pt.split pos len).1
    deleteLoop pt1 (pos.piece_index + 1) (len - gap)
      (pt1.pieces.length + (len - gap))
  else
    deleteLoop pt pos.piece_index len (pt.pieces.length + len)

/-- Rust `PieceTable::piece_text`: the slice `buffers[piece.buffer_index][piece.start..piece.end]`. -/
def PieceTable.piece_text (pt : PieceTable) (piece : Piece) : List Char :=
  ((pt.buffers.getD piece.buffer_index ⟨[], 0⟩).data.take piece.«end»).drop piece.start

/-- Rust `PieceTable::to_string`: concatenate every piece's text in order. -/
def PieceTable.to_string (pt : PieceTable) : List Char :=
  pt.pieces.foldl (fun s piece => s ++ pt.piece_text piece) []

/-! ## Derived notions used by the specification claims -/

/-- Total logical document length: the sum of the piece lengths. -/
def PieceTable.docLen (pt : PieceTable) : Nat :=
  (pt.pieces.map Piece.len).sum

/-- Sum of the lengths of the first `n` pieces of a piece list. -/
def sumTake (l : List Piece) (n : Nat) : Nat :=
  ((l.take n).map Piece.len).sum

/-- Well-formedness of one piece against a buffer store: the piece addresses
an existing buffer and a range inside it. -/
def PieceWF (buffers : List Buffer) (p : Piece) : Prop :=
  p.buffer_index < buffers.length ∧
  p.start ≤ p.«end» ∧
  p.«end» ≤ (buffers.getD p.buffer_index ⟨[], 0⟩).data.length

instance (buffers : List Buffer) (p : Piece) : Decidable (PieceWF buffers p) :=
  inferInstanceAs (Decidable (_ ∧ _))

/-- Structural well-formedness (the data-model invariant of spec section 3):
every piece addresses an existing buffer and a range inside it. -/
def WF (pt : PieceTable) : Prop :=
  ∀ p ∈ pt.pieces, PieceWF pt.buffers p

instance (pt : PieceTable) : Decidable (WF pt) :=
  inferInstanceAs (Decidable (∀ p ∈ pt.pieces, PieceWF pt.buffers p))

/-- No piece in the list has length zero. -/
def NoEmpty (pt : PieceTable) : Prop :=
  ∀ p ∈ pt.pieces, 0 < p.len

instance (pt : PieceTable) : Decidable (NoEmpty pt) :=
  inferInstanceAs (Decidable (∀ p ∈ pt.pieces, 0 < p.len))

/-- Two pieces in sequence are mergeable when they lie in the same buffer and
are byte-contiguous (left `end` equals right `start`); the merge test of
`Piece::merge`. -/
def Mergeable (q p : Piece) : Prop :=
  p.buffer_index = q.buffer_index ∧ p.start = q.«end»

instance (q p : Piece) : Decidable (Mergeable q p) :=
  inferInstanceAs (Decidable (_ ∧ _))

/-- No two sequence-adjacent pieces are mergeable. -/
def NoAdj (l : List Piece) : Prop :=
  List.Chain' (fun q p => ¬ Mergeable q p) l

/-- Executable check for `NoAdj` (kernel-reducible decision procedure). -/
def noAdjB : List Piece → Bool
  | q :: p :: rest => !(decide (Mergeable q p)) && noAdjB (p :: rest)
  | _ => true

theorem noAdjB_iff : ∀ l : List Piece, noAdjB l = true ↔ NoAdj l
  | [] => by simp [noAdjB, NoAdj]
  | [q] => by simp [noAdjB, NoAdj]
  | q :: p :: rest => by
    rw [NoAdj, List.chain'_cons, ← NoAdj, ← noAdjB_iff (p :: rest)]
    simp [noAdjB]

instance (priority := 2000) (l : List Piece) : Decidable (NoAdj l) :=
  decidable_of_iff _ (noAdjB_iff l)

/-- Every piece's slice is fully inside its buffer: taking `[start, end)` of
the buffer loses nothing, so the Rust slice `&buffer[start..end]` in
`piece_text` is in bounds and `end - start` does not underflow. -/
def TextInBounds (pt : PieceTable) : Prop :=
  ∀ p ∈ pt.pieces, (pt.piece_text p).length = p.«end» - p.start

/-- Editing operations of the public API. -/
inductive EditOp where
  | ins (position : Nat) (s : List Char)
  | del (position len : Nat)
deriving DecidableEq

/-- Apply one public operation to the table. -/
def PieceTable.applyOp (pt : PieceTable) : EditOp → PieceTable
  | .ins position s => pt.insert position s
  | .del position len => pt.delete position len

/-- Apply a sequence of public operations to the table. -/
def PieceTable.applyOps (pt : PieceTable) (ops : List EditOp) : PieceTable :=
  ops.foldl PieceTable.applyOp pt

/-- States reachable from the constructors by public operations. -/
inductive Reachable : PieceTable → Prop
  | new : Reachable PieceTable.new
  | from_string (s : List Char) : Reachable (PieceTable.from_string s)
  | insert (pt : PieceTable) (position : Nat) (s : List Char) :
      Reachable pt → Reachable (pt.insert position s)
  | delete (pt : PieceTable) (position len : Nat) :
      Reachable pt → Reachable (pt.delete position len)

/-- States reachable when every inserted text and every seed string is
nonempty. -/
inductive ReachableNE : PieceTable → Prop
  | new : ReachableNE PieceTable.new
  | from_string (s : List Char) (h : s ≠ []) : ReachableNE (PieceTable.from_string s)
  | insert (pt : PieceTable) (position : Nat) (s : List Char) (h : s ≠ []) :
      ReachableNE pt → ReachableNE (pt.insert position s)
  | delete (pt : PieceTable) (position len : Nat) :
      ReachableNE pt → ReachableNE (pt.delete position len)

/-! ## Reference model (from the spec's words, for the refinement claim)

Modelled from the spec: a plain mutable string with the clamping semantics of
spec sections 7 and 8 — `insert` at or past the end appends, `delete` past the
end is truncated to the available length.  `List.take`/`List.drop` clamp
exactly this way. -/

/-- Reference `insert`: splice `s` in at `position`, clamped to the end. -/
def refInsert (doc : List Char) (position : Nat) (s : List Char) : List Char :=
  doc.take position ++ s ++ doc.drop position

/-- Reference `delete`: remove `len` characters starting at `position`,
clamped to the end. -/
def refDelete (doc : List Char) (position len : Nat) : List Char :=
  doc.take position ++ doc.drop (position + len)

/-- Apply one operation to the reference model. -/
def refApplyOp (doc : List Char) : EditOp → List Char
  | .ins position s => refInsert doc position s
  | .del position len => refDelete doc position len

/-- Apply a sequence of operations to the reference model. -/
def refApplyOps (doc : List Char) (ops : List EditOp) : List Char :=
  ops.foldl refApplyOp doc

/-! ## Checked `usize` arithmetic (for the overflow claim)

The source is written for a 64-bit host.  `chkAdd`/`chkSub` return `none`
exactly where `+`/`-` on `usize` would trap in a debug build (overflow past
`usize::MAX`, or underflow below zero). -/

/-- `usize::MAX` on the 64-bit host the crate targets. -/
def usizeMax : Nat := 2 ^ 64 - 1

/-- Checked `usize` addition. -/
def chkAdd (a b : Nat) : Option Nat :=
  if a + b ≤ usizeMax then some (a + b) else none

/-- Checked `usize` subtraction. -/
def chkSub (a b : Nat) : Option Nat :=
  if b ≤ a then some (a - b) else none

/-- `PieceTable::split` with every arithmetic step on `position`/`length`
data checked, mirroring the source expression by expression. -/
def PieceTable.splitChecked (pt : PieceTable) (loc : Location) (gap : Nat) :
    Option (PieceTable × Nat) :=
  match pt.pieces.get? loc.piece_index with
  | some piece =>
    if loc.offset = 0 then do
      let s ← chkAdd piece.start gap
      let alen ← chkSub piece.«end» s
      if alen > 0 then
        pure ({ pt with pieces := pt.pieces.set loc.piece_index (piece.after gap) },
          loc.piece_index)
      else
        pure ({ pt with pieces := pt.pieces.eraseIdx loc.piece_index },
          loc.piece_index)
    else do
      let plen ← chkSub piece.«end» piece.start
      if loc.offset < plen then do
        let _ ← chkAdd loc.offset piece.start
        let sum ← chkAdd gap loc.offset
        let ps := pt.pieces.set loc.piece_index (piece.before loc.offset)
        if sum < plen then do
          let _ ← chkAdd piece.start sum
          let ps2 := ps.insertIdx (loc.piece_index + 1) (piece.after sum)
          pure ({ pt with pieces := ps2 }, loc.piece_index + 1)
        else
          pure ({ pt with pieces := ps }, loc.piece_index + 1)
      else
        pure (pt, loc.piece_index + 1)
  | none => pure (pt, loc.piece_index)

/-- The `while` loop of `delete`, checked. -/
def deleteLoopChecked : PieceTable → Nat → Nat → Nat → Option PieceTable
  | pt, _, _, 0 => pure pt
  | pt, index, len, fuel + 1 =>
    if 0 < len ∧ index < pt.pieces.length then do
      let plen ← chkSub (pt.pieces.getD index ⟨0, 0, 0⟩).«end»
        (pt.pieces.getD index ⟨0, 0, 0⟩).start
      let gap := min len plen
      let r ← pt.splitChecked (Location.new index 0) gap
      let len' ← chkSub len gap
      deleteLoopChecked r.1 index len' fuel
    else pure pt

/-- `PieceTable::delete` with checked arithmetic: returns `none` exactly when
a debug build of the source would trap on overflow. -/
def PieceTable.deleteChecked (pt : PieceTable) (position len : Nat) :
    Option PieceTable := do
  let pos := pt.locate position
  if 0 < pos.offset then do
    let plen ← chkSub (pt.pieces.getD pos.piece_index ⟨0, 0, 0⟩).«end»
      (pt.pieces.getD pos.piece_index ⟨0, 0, 0⟩).start
    let avail ← chkSub plen pos.offset
    let gap := min len avail
    let r ← pt.splitChecked pos len
    let len' ← chkSub len gap
    deleteLoopChecked r.1 (pos.piece_index + 1) len'
      (r.1.pieces.length + len')
  else
    deleteLoopChecked pt pos.piece_index len (pt.pieces.length + len)

/-- Sum of the piece lengths of a list. -/
def sumLens (l : List Piece) : Nat := (l.map Piece.len).sum

/-- Concatenated text of a list of pieces against the buffers of `pt`. -/
def textSeg (pt : PieceTable) (l : List Piece) : List Char :=
  (l.map pt.piece_text).flatten

/-! ## Basic lemmas -/

theorem Piece.len_before (p : Piece) (offset : Nat) :
    (p.before offset).len = offset := by
  simp [Piece.before, Piece.len]

theorem Piece.len_after (p : Piece) (offset : Nat) :
    (p.after offset).len = p.len - offset := by
  simp [Piece.after, Piece.len, Nat.sub_sub, Nat.add_comm]

theorem insertIdx_eq_take_cons_drop {α : Type} (l : List α) (n : Nat) (x : α)
    (h : n ≤ l.length) : l.insertIdx n x = l.take n ++ x :: l.drop n := by
  induction l generalizing n with
  | nil =>
    have hn : n = 0 := Nat.le_zero.mp (by simpa using h)
    subst hn; simp
  | cons a as ih =>
    cases n with
    | zero => simp
    | succ m =>
      simp only [List.insertIdx_succ_cons, List.take_succ_cons, List.drop_succ_cons,
        List.cons_append, List.cons.injEq, true_and]
      exact ih m (Nat.le_of_succ_le_succ h)

theorem set_eq_take_cons_drop {α : Type} (l : List α) (n : Nat) (x : α)
    (h : n < l.length) : l.set n x = l.take n ++ x :: l.drop (n + 1) := by
  rw [List.set_eq_take_append_cons_drop, if_pos h]

theorem eq_take_cons_drop {α : Type} (l : List α) (n : Nat) (h : n < l.length) :
    l = l.take n ++ l[n] :: l.drop (n + 1) := by
  conv_lhs => rw [← List.take_append_drop n l, List.drop_eq_getElem_cons h]

theorem piece_text_pieces (pt : PieceTable) (l : List Piece) (p : Piece) :
    ({ pt with pieces := l } : PieceTable).piece_text p = pt.piece_text p := rfl

theorem textSeg_pieces (pt : PieceTable) (l ps : List Piece) :
    textSeg { pt with pieces := ps } l = textSeg pt l := rfl

theorem to_string_eq_textSeg (pt : PieceTable) :
    pt.to_string = textSeg pt pt.pieces := by
  rw [PieceTable.to_string, textSeg]
  generalize pt.pieces = l
  induction l using List.reverseRecOn with
  | nil => simp
  | append_singleton as a ih => simp [ih]

theorem textSeg_append (pt : PieceTable) (l₁ l₂ : List Piece) :
    textSeg pt (l₁ ++ l₂) = textSeg pt l₁ ++ textSeg pt l₂ := by
  simp [textSeg]

theorem textSeg_cons (pt : PieceTable) (p : Piece) (l : List Piece) :
    textSeg pt (p :: l) = pt.piece_text p ++ textSeg pt l := by
  simp [textSeg]

theorem piece_text_eq_nil (pt : PieceTable) (p : Piece) (h : p.len = 0) :
    pt.piece_text p = [] := by
  apply List.drop_eq_nil_of_le
  calc (((pt.buffers.getD p.buffer_index ⟨[], 0⟩).data).take p.«end»).length
      ≤ p.«end» := by simp
    _ ≤ p.start := Nat.le_of_sub_eq_zero h

theorem length_piece_text (pt : PieceTable) (p : Piece)
    (h : p.«end» ≤ (pt.buffers.getD p.buffer_index ⟨[], 0⟩).data.length) :
    (pt.piece_text p).length = p.len := by
  rw [PieceTable.piece_text, List.length_drop, List.length_take, Nat.min_eq_left h]
  rfl

theorem sumLens_nil : sumLens [] = 0 := rfl

theorem sumLens_cons (p : Piece) (l : List Piece) :
    sumLens (p :: l) = p.len + sumLens l := by
  simp [sumLens]

theorem sumLens_append (l₁ l₂ : List Piece) :
    sumLens (l₁ ++ l₂) = sumLens l₁ + sumLens l₂ := by
  simp [sumLens]

theorem sumTake_eq (l : List Piece) (n : Nat) : sumTake l n = sumLens (l.take n) := rfl

theorem docLen_eq (pt : PieceTable) : pt.docLen = sumLens pt.pieces := rfl

theorem sumTake_of_ge (l : List Piece) (n : Nat) (h : l.length ≤ n) :
    sumTake l n = sumLens l := by
  rw [sumTake_eq, List.take_of_length_le h]

theorem length_textSeg (pt : PieceTable) (l : List Piece)
    (h : ∀ p ∈ l, PieceWF pt.buffers p) :
    (textSeg pt l).length = sumLens l := by
  induction l with
  | nil => rfl
  | cons p rest ih =>
    rw [textSeg_cons, List.length_append, sumLens_cons,
      length_piece_text pt p (h p (by simp)).2.2,
      ih (fun q hq => h q (by simp [hq]))]

theorem sum_take_map_length (pt : PieceTable) (l : List Piece)
    (h : ∀ p ∈ l, PieceWF pt.buffers p) (i : Nat) :
    (List.take i (List.map List.length (List.map pt.piece_text l))).sum = sumTake l i := by
  rw [List.map_map, sumTake_eq, sumLens, ← List.map_take]
  apply congrArg List.sum
  apply List.map_congr_left
  intro p hp
  exact length_piece_text pt p (h p (List.mem_of_mem_take hp)).2.2

theorem textSeg_take (pt : PieceTable) (l : List Piece)
    (h : ∀ p ∈ l, PieceWF pt.buffers p) (i : Nat) :
    textSeg pt (l.take i) = (textSeg pt l).take (sumTake l i) := by
  rw [textSeg, textSeg, List.map_take, ← List.take_sum_flatten (l.map pt.piece_text) i]
  congr 1
  exact sum_take_map_length pt l h i

theorem textSeg_drop (pt : PieceTable) (l : List Piece)
    (h : ∀ p ∈ l, PieceWF pt.buffers p) (i : Nat) :
    textSeg pt (l.drop i) = (textSeg pt l).drop (sumTake l i) := by
  rw [textSeg, textSeg, List.map_drop, ← List.drop_sum_flatten (l.map pt.piece_text) i]
  congr 1
  exact sum_take_map_length pt l h i

/-! ## `locate` characterization -/

theorem locateGo_spec (pos : Nat) :
    ∀ (l : List Piece) (acc idx : Nat), acc ≤ pos →
    ∃ i off, locateGo pos l acc idx = Location.new (idx + i) off ∧
      i ≤ l.length ∧
      sumTake l i + off = min (pos - acc) (sumLens l) ∧
      (0 < off → i < l.length ∧ off < (l.getD i ⟨0, 0, 0⟩).len) := by
  intro l
  induction l with
  | nil =>
    intro acc idx hacc
    exact ⟨0, 0, by simp [locateGo], by simp, by simp [sumTake, sumLens], by simp⟩
  | cons p rest ih =>
    intro acc idx hacc
    rcases Nat.lt_trichotomy pos (acc + p.len) with h1 | h1 | h1
    · refine ⟨0, pos - acc, ?_, by simp, ?_, ?_⟩
      · simp only [locateGo, if_pos h1, Location.new, Location.mk.injEq]
        omega
      · have : sumLens (p :: rest) = p.len + sumLens rest := sumLens_cons p rest
        have h0 : sumTake (p :: rest) 0 = 0 := rfl
        omega
      · intro hoff
        refine ⟨by simp, ?_⟩
        simp only [List.getD_cons_zero]
        omega
    · refine ⟨1, 0, ?_, by simp, ?_, by simp⟩
      · simp only [locateGo, if_neg (by omega : ¬ pos < acc + p.len), if_pos h1,
          Location.new, Location.mk.injEq]
      · have h2 : sumTake (p :: rest) 1 = p.len := by simp [sumTake, Piece.len]
        have : sumLens (p :: rest) = p.len + sumLens rest := sumLens_cons p rest
        omega
    · obtain ⟨i, off, heq, hle, hsum, hoff⟩ := ih (acc + p.len) (idx + 1) (by omega)
      refine ⟨i + 1, off, ?_, by simpa using hle, ?_, ?_⟩
      · rw [locateGo]
        simp only [if_neg (by omega : ¬ pos < acc + p.len),
          if_neg (by omega : ¬ pos = acc + p.len)]
        rw [heq]
        simp [Location.new, Nat.add_assoc, Nat.add_comm 1 i]
      · have h2 : sumTake (p :: rest) (i + 1) = p.len + sumTake rest i := by
          simp [sumTake, List.take_succ_cons, Piece.len]
        have h3 : sumLens (p :: rest) = p.len + sumLens rest := sumLens_cons p rest
        omega
      · intro h4
        obtain ⟨ha, hb⟩ := hoff h4
        exact ⟨by simpa using ha, by simpa using hb⟩

theorem locate_spec (pt : PieceTable) (pos : Nat) :
    ∃ i off, pt.locate pos = Location.new i off ∧ i ≤ pt.pieces.length ∧
      sumTake pt.pieces i + off = min pos pt.docLen ∧
      (0 < off → i < pt.pieces.length ∧ off < (pt.pieces.getD i ⟨0, 0, 0⟩).len) := by
  obtain ⟨i, off, heq, hle, hsum, hoff⟩ :=
    locateGo_spec pos pt.pieces 0 0 (Nat.zero_le pos)
  exact ⟨i, off, by simpa [PieceTable.locate] using heq, hle,
    by simpa [docLen_eq] using hsum, hoff⟩

theorem locateGo_ge (pos : Nat) :
    ∀ (l : List Piece) (acc idx : Nat), (∀ p ∈ l, 0 < p.len) →
    acc + sumLens l ≤ pos →
    locateGo pos l acc idx = Location.new (idx + l.length) 0 := by
  intro l
  induction l with
  | nil => intro acc idx _ _; simp [locateGo]
  | cons p rest ih =>
    intro acc idx hne hge
    have hlen : sumLens (p :: rest) = p.len + sumLens rest := sumLens_cons p rest
    by_cases h2 : pos = acc + p.len
    · have h3 : sumLens rest = 0 := by omega
      have h4 : rest = [] := by
        cases rest with
        | nil => rfl
        | cons q qs =>
          have := hne q (by simp)
          rw [sumLens_cons] at h3
          omega
      subst h4
      simp only [locateGo, if_neg (by omega : ¬ pos < acc + p.len), if_pos h2]
      rfl
    · simp only [locateGo, if_neg (by omega : ¬ pos < acc + p.len), if_neg h2]
      rw [ih (acc + p.len) (idx + 1) (fun q hq => hne q (by simp [hq])) (by omega)]
      simp only [Location.new, Location.mk.injEq, List.length_cons, and_true]
      omega

theorem locate_ge (pt : PieceTable) (pos : Nat) (h : NoEmpty pt)
    (hpos : pt.docLen ≤ pos) :
    pt.locate pos = Location.new pt.pieces.length 0 := by
  have := locateGo_ge pos pt.pieces 0 0 h (by simpa [docLen_eq] using hpos)
  simpa [PieceTable.locate] using this

theorem locateGo_boundary (pos : Nat) :
    ∀ (l : List Piece) (i acc idx : Nat), (∀ p ∈ l, 0 < p.len) →
    i < l.length → pos = acc + sumTake l (i + 1) → pos < acc + sumLens l →
    locateGo pos l acc idx = Location.new (idx + i + 1) 0 := by
  intro l
  induction l with
  | nil => intro i acc idx _ hi _ _; simp at hi
  | cons p rest ih =>
    intro i acc idx hne hi hpos hlt
    have hlen : sumLens (p :: rest) = p.len + sumLens rest := sumLens_cons p rest
    cases i with
    | zero =>
      have h2 : sumTake (p :: rest) (0 + 1) = p.len := by simp [sumTake]
      simp only [locateGo, if_neg (by omega : ¬ pos < acc + p.len),
        if_pos (by omega : pos = acc + p.len)]
    | succ j =>
      have h2 : sumTake (p :: rest) (j + 1 + 1) = p.len + sumTake rest (j + 1) := by
        simp [sumTake, List.take_succ_cons]
      have hjlen : j < rest.length := by simpa using hi
      have htail : 0 < sumTake rest (j + 1) := by
        cases rest with
        | nil => simp at hjlen
        | cons r0 rest' =>
          have hr0 := hne r0 (by simp)
          have hsum0 : sumTake (r0 :: rest') (j + 1) = r0.len + sumTake rest' j := by
            simp [sumTake, List.take_succ_cons]
          omega
      simp only [locateGo, if_neg (by omega : ¬ pos < acc + p.len),
        if_neg (by omega : ¬ pos = acc + p.len)]
      rw [ih j (acc + p.len) (idx + 1) (fun q hq => hne q (by simp [hq])) hjlen (by omega)
        (by omega)]
      simp only [Location.new, Location.mk.injEq, and_true]
      omega

theorem locate_boundary (pt : PieceTable) (pos i : Nat) (h : NoEmpty pt)
    (hi : i < pt.pieces.length) (hpos : pos = sumTake pt.pieces (i + 1))
    (hlt : pos < pt.docLen) :
    pt.locate pos = Location.new (i + 1) 0 := by
  have := locateGo_boundary pos pt.pieces i 0 0 h hi (by simpa using hpos)
    (by simpa [docLen_eq] using hlt)
  simpa [PieceTable.locate] using this

/-! ## Piece text algebra -/

theorem take_drop_append {α : Type} (d : List α) (a b c : Nat) (hab : a ≤ b)
    (hbc : b ≤ c) :
    (d.take b).drop a ++ (d.take c).drop b = (d.take c).drop a := by
  rw [List.drop_take, List.drop_take, List.drop_take,
    show c - a = (b - a) + (c - b) by omega, List.take_add]
  congr 1
  rw [List.drop_drop, show a + (b - a) = b by omega]

theorem piece_text_split (pt : PieceTable) (piece : Piece) (off : Nat)
    (h1 : off ≤ piece.len) (h2 : piece.start ≤ piece.«end») :
    pt.piece_text (piece.before off) ++ pt.piece_text (piece.after off) =
      pt.piece_text piece := by
  have hb : piece.start + off = off + piece.start := Nat.add_comm _ _
  rw [PieceTable.piece_text, PieceTable.piece_text, PieceTable.piece_text,
    Piece.before, Piece.after]
  simp only
  rw [hb]
  exact take_drop_append _ piece.start (off + piece.start) piece.«end»
    (by omega) (by simp [Piece.len] at h1; omega)

theorem piece_text_merge (pt : PieceTable) (q p : Piece)
    (hb : p.buffer_index = q.buffer_index) (hc : p.start = q.«end»)
    (hq : q.start ≤ q.«end») (hp : p.start ≤ p.«end») :
    pt.piece_text { buffer_index := q.buffer_index, start := q.start, «end» := p.«end» } =
      pt.piece_text q ++ pt.piece_text p := by
  rw [PieceTable.piece_text, PieceTable.piece_text, PieceTable.piece_text, ← hb, hc.symm]
  simp only
  rw [hc]
  exact (take_drop_append _ q.start q.«end» p.«end» hq (hc ▸ hp)).symm

/-! ## `split` case analysis -/

theorem split_none (pt : PieceTable) (loc : Location) (gap : Nat)
    (h : pt.pieces.get? loc.piece_index = none) :
    pt.split loc gap = (pt, loc.piece_index) := by
  rw [PieceTable.split, h]

theorem split_zero_kept (pt : PieceTable) (loc : Location) (gap : Nat)
    (piece : Piece) (h : pt.pieces.get? loc.piece_index = some piece)
    (hoff : loc.offset = 0) (hgap : gap < piece.len) :
    pt.split loc gap =
      ({ pt with pieces := pt.pieces.set loc.piece_index (piece.after gap) },
        loc.piece_index) := by
  rw [PieceTable.split, h]
  simp only [if_pos hoff]
  rw [if_pos (by rw [Piece.len_after]; omega)]

theorem split_zero_removed (pt : PieceTable) (loc : Location) (gap : Nat)
    (piece : Piece) (h : pt.pieces.get? loc.piece_index = some piece)
    (hoff : loc.offset = 0) (hgap : piece.len ≤ gap) :
    pt.split loc gap =
      ({ pt with pieces := pt.pieces.eraseIdx loc.piece_index },
        loc.piece_index) := by
  rw [PieceTable.split, h]
  simp only [if_pos hoff]
  rw [if_neg (by rw [Piece.len_after]; omega)]

theorem split_mid_suffix (pt : PieceTable) (loc : Location) (gap : Nat)
    (piece : Piece) (h : pt.pieces.get? loc.piece_index = some piece)
    (hoff : loc.offset ≠ 0) (hlt : loc.offset < piece.len)
    (hgap : gap + loc.offset < piece.len) :
    pt.split loc gap =
      ({ pt with pieces := (pt.pieces.set loc.piece_index
                              (piece.before loc.offset)).insertIdx
                              (loc.piece_index + 1)
                              (piece.after (loc.offset + gap)) },
        loc.piece_index + 1) := by
  rw [PieceTable.split, h]
  simp only [if_neg hoff]
  rw [if_pos hlt, if_pos hgap]

theorem split_mid_cut (pt : PieceTable) (loc : Location) (gap : Nat)
    (piece : Piece) (h : pt.pieces.get? loc.piece_index = some piece)
    (hoff : loc.offset ≠ 0) (hlt : loc.offset < piece.len)
    (hgap : piece.len ≤ gap + loc.offset) :
    pt.split loc gap =
      ({ pt with pieces := pt.pieces.set loc.piece_index (piece.before loc.offset) },
        loc.piece_index + 1) := by
  rw [PieceTable.split, h]
  simp only [if_neg hoff]
  rw [if_pos hlt, if_neg (by omega)]

theorem split_mid_out (pt : PieceTable) (loc : Location) (gap : Nat)
    (piece : Piece) (h : pt.pieces.get? loc.piece_index = some piece)
    (hoff : loc.offset ≠ 0) (hge : piece.len ≤ loc.offset) :
    pt.split loc gap = (pt, loc.piece_index + 1) := by
  rw [PieceTable.split, h]
  simp only [if_neg hoff]
  rw [if_neg (by omega)]

theorem split_buffers (pt : PieceTable) (loc : Location) (gap : Nat) :
    (pt.split loc gap).1.buffers = pt.buffers := by
  cases h : pt.pieces.get? loc.piece_index with
  | none => rw [split_none pt loc gap h]
  | some piece =>
    by_cases hoff : loc.offset = 0
    · by_cases hgap : gap < piece.len
      · rw [split_zero_kept pt loc gap piece h hoff hgap]
      · rw [split_zero_removed pt loc gap piece h hoff (by omega)]
    · by_cases hlt : loc.offset < piece.len
      · by_cases hgap : gap + loc.offset < piece.len
        · rw [split_mid_suffix pt loc gap piece h hoff hlt hgap]
        · rw [split_mid_cut pt loc gap piece h hoff hlt (by omega)]
      · rw [split_mid_out pt loc gap piece h hoff (by omega)]

theorem get?_some_lt {α : Type} {l : List α} {i : Nat} {p : α}
    (h : l.get? i = some p) : i < l.length := by
  obtain ⟨hl, -⟩ := List.get?_eq_some.mp h
  exact hl

theorem getD_of_get? {α : Type} {l : List α} {i : Nat} {p : α}
    (h : l.get? i = some p) (d : α) : l.getD i d = p := by
  simp [List.getD_eq_getElem?_getD, ← List.get?_eq_getElem?, h]

theorem split_pieces_mem (pt : PieceTable) (loc : Location) (gap : Nat)
    (q : Piece) (hq : q ∈ (pt.split loc gap).1.pieces) :
    q ∈ pt.pieces ∨
    (∃ piece ∈ pt.pieces, pt.pieces.get? loc.piece_index = some piece ∧
      (q = piece.after gap ∨ q = piece.before loc.offset ∨
        q = piece.after (loc.offset + gap))) := by
  cases h : pt.pieces.get? loc.piece_index with
  | none => rw [split_none pt loc gap h] at hq; exact Or.inl hq
  | some piece =>
    have hmem := List.get?_mem h
    by_cases hoff : loc.offset = 0
    · by_cases hgap : gap < piece.len
      · rw [split_zero_kept pt loc gap piece h hoff hgap] at hq
        rcases List.mem_or_eq_of_mem_set hq with h1 | h1
        · exact Or.inl h1
        · exact Or.inr ⟨piece, hmem, rfl, Or.inl h1⟩
      · rw [split_zero_removed pt loc gap piece h hoff (by omega)] at hq
        exact Or.inl (List.mem_of_mem_eraseIdx hq)
    · by_cases hlt : loc.offset < piece.len
      · by_cases hgap : gap + loc.offset < piece.len
        · rw [split_mid_suffix pt loc gap piece h hoff hlt hgap] at hq
          have hlen : loc.piece_index + 1 ≤ (pt.pieces.set loc.piece_index
              (piece.before loc.offset)).length := by
            rw [List.length_set]
            exact get?_some_lt h
          rcases (List.mem_insertIdx hlen).mp hq with h1 | h1
          · exact Or.inr ⟨piece, hmem, rfl, Or.inr (Or.inr h1)⟩
          · rcases List.mem_or_eq_of_mem_set h1 with h2 | h2
            · exact Or.inl h2
            · exact Or.inr ⟨piece, hmem, rfl, Or.inr (Or.inl h2)⟩
        · rw [split_mid_cut pt loc gap piece h hoff hlt (by omega)] at hq
          rcases List.mem_or_eq_of_mem_set hq with h1 | h1
          · exact Or.inl h1
          · exact Or.inr ⟨piece, hmem, rfl, Or.inr (Or.inl h1)⟩
      · rw [split_mid_out pt loc gap piece h hoff (by omega)] at hq
        exact Or.inl hq

theorem split_WF (pt : PieceTable) (loc : Location) (gap : Nat) (hWF : WF pt) :
    WF (pt.split loc gap).1 := by
  intro q hq
  rw [split_buffers]
  cases h : pt.pieces.get? loc.piece_index with
  | none => rw [split_none pt loc gap h] at hq; exact hWF q hq
  | some piece =>
    obtain ⟨h1, h2, h3⟩ := hWF piece (List.get?_mem h)
    have hlen : piece.len = piece.«end» - piece.start := rfl
    by_cases hoff : loc.offset = 0
    · by_cases hgap : gap < piece.len
      · rw [split_zero_kept pt loc gap piece h hoff hgap] at hq
        rcases List.mem_or_eq_of_mem_set hq with hm | hm
        · exact hWF q hm
        · subst hm
          exact ⟨h1, by simp only [Piece.after]; omega, h3⟩
      · rw [split_zero_removed pt loc gap piece h hoff (by omega)] at hq
        exact hWF q (List.mem_of_mem_eraseIdx hq)
    · by_cases hlt : loc.offset < piece.len
      · by_cases hgap : gap + loc.offset < piece.len
        · rw [split_mid_suffix pt loc gap piece h hoff hlt hgap] at hq
          have hle : loc.piece_index + 1 ≤ (pt.pieces.set loc.piece_index
              (piece.before loc.offset)).length := by
            rw [List.length_set]
            exact get?_some_lt h
          rcases (List.mem_insertIdx hle).mp hq with hm | hm
          · subst hm
            exact ⟨h1, by simp only [Piece.after]; omega, h3⟩
          · rcases List.mem_or_eq_of_mem_set hm with hm2 | hm2
            · exact hWF q hm2
            · subst hm2
              exact ⟨h1, by simp only [Piece.before]; omega,
                by simp only [Piece.before]; omega⟩
        · rw [split_mid_cut pt loc gap piece h hoff hlt (by omega)] at hq
          rcases List.mem_or_eq_of_mem_set hq with hm | hm
          · exact hWF q hm
          · subst hm
            exact ⟨h1, by simp only [Piece.before]; omega,
              by simp only [Piece.before]; omega⟩
      · rw [split_mid_out pt loc gap piece h hoff (by omega)] at hq
        exact hWF q hq

theorem split_NoEmpty (pt : PieceTable) (loc : Location) (gap : Nat)
    (hne : NoEmpty pt) :
    NoEmpty (pt.split loc gap).1 := by
  intro q hq
  cases h : pt.pieces.get? loc.piece_index with
  | none => rw [split_none pt loc gap h] at hq; exact hne q hq
  | some piece =>
    have hmem := List.get?_mem h
    by_cases hoff : loc.offset = 0
    · by_cases hgap : gap < piece.len
      · rw [split_zero_kept pt loc gap piece h hoff hgap] at hq
        rcases List.mem_or_eq_of_mem_set hq with h1 | h1
        · exact hne q h1
        · subst h1; rw [Piece.len_after]; omega
      · rw [split_zero_removed pt loc gap piece h hoff (by omega)] at hq
        exact hne q (List.mem_of_mem_eraseIdx hq)
    · by_cases hlt : loc.offset < piece.len
      · by_cases hgap : gap + loc.offset < piece.len
        · rw [split_mid_suffix pt loc gap piece h hoff hlt hgap] at hq
          have hlen : loc.piece_index + 1 ≤ (pt.pieces.set loc.piece_index
              (piece.before loc.offset)).length := by
            rw [List.length_set]
            exact get?_some_lt h
          rcases (List.mem_insertIdx hlen).mp hq with h1 | h1
          · subst h1; rw [Piece.len_after]; omega
          · rcases List.mem_or_eq_of_mem_set h1 with h2 | h2
            · exact hne q h2
            · subst h2; rw [Piece.len_before]; omega
        · rw [split_mid_cut pt loc gap piece h hoff hlt (by omega)] at hq
          rcases List.mem_or_eq_of_mem_set hq with h1 | h1
          · exact hne q h1
          · subst h1; rw [Piece.len_before]; omega
      · rw [split_mid_out pt loc gap piece h hoff (by omega)] at hq
        exact hne q hq

/-! ## The buffer-append phase of `insert` -/

/-- The first phase of `PieceTable::insert` (source lines: `buffer_with_capacity`,
`start`/`end` computation, `*buffer += s`, construction of `piece`): append `s`
to the chosen buffer and build the new piece for the appended range. -/
def PieceTable.appendStep (pt : PieceTable) (s : List Char) : PieceTable × Piece :=
  let r := pt.buffer_with_capacity s.length
  let start := (r.1.buffers.getD r.2 ⟨[], 0⟩).data.length
  ({ r.1 with
      buffers := r.1.buffers.set r.2
        (let b := r.1.buffers.getD r.2 ⟨[], 0⟩
         { b with data := b.data ++ s }) },
    { buffer_index := r.2, start := start, «end» := start + s.length })

/-- `insert` is the append phase followed by locate, split and the merge rule. -/
theorem insert_eq (pt : PieceTable) (pos : Nat) (s : List Char) :
    pt.insert pos s =
      (if ((pt.appendStep s).1.split ((pt.appendStep s).1.locate pos) 0).2 = 0 then
        { ((pt.appendStep s).1.split ((pt.appendStep s).1.locate pos) 0).1 with
          pieces := (((pt.appendStep s).1.split ((pt.appendStep s).1.locate pos) 0).1.pieces.insertIdx
            ((pt.appendStep s).1.split ((pt.appendStep s).1.locate pos) 0).2 (pt.appendStep s).2) }
      else if ((((pt.appendStep s).1.split ((pt.appendStep s).1.locate pos) 0).1.pieces.getD
          (((pt.appendStep s).1.split ((pt.appendStep s).1.locate pos) 0).2 - 1) ⟨0, 0, 0⟩).merge
          (pt.appendStep s).2).2 then
        { ((pt.appendStep s).1.split ((pt.appendStep s).1.locate pos) 0).1 with
          pieces := (((pt.appendStep s).1.split ((pt.appendStep s).1.locate pos) 0).1.pieces.set
            (((pt.appendStep s).1.split ((pt.appendStep s).1.locate pos) 0).2 - 1)
            ((((pt.appendStep s).1.split ((pt.appendStep s).1.locate pos) 0).1.pieces.getD
              (((pt.appendStep s).1.split ((pt.appendStep s).1.locate pos) 0).2 - 1) ⟨0, 0, 0⟩).merge
              (pt.appendStep s).2).1) }
      else
        { ((pt.appendStep s).1.split ((pt.appendStep s).1.locate pos) 0).1 with
          pieces := (((pt.appendStep s).1.split ((pt.appendStep s).1.locate pos) 0).1.pieces.insertIdx
            ((pt.appendStep s).1.split ((pt.appendStep s).1.locate pos) 0).2 (pt.appendStep s).2) }) := rfl

theorem buffer_with_capacity_spec (pt : PieceTable) (c : Nat) :
    (pt.buffer_with_capacity c).1.pieces = pt.pieces ∧
    pt.buffers.length ≤ (pt.buffer_with_capacity c).1.buffers.length ∧
    (pt.buffer_with_capacity c).2 < (pt.buffer_with_capacity c).1.buffers.length ∧
    ∀ i, i < pt.buffers.length →
      ((pt.buffer_with_capacity c).1.buffers.getD i ⟨[], 0⟩).data
        = (pt.buffers.getD i ⟨[], 0⟩).data := by
  rw [PieceTable.buffer_with_capacity]
  by_cases hc : (pt.buffers.getLast?.filter fun buffer =>
      decide (c < buffer.cap - buffer.data.length)).isNone
  · rw [if_pos hc]
    refine ⟨rfl, ?_, ?_, ?_⟩
    · simp [PieceTable.add_buffer]
    · simp [PieceTable.add_buffer]
    · intro i hi
      simp only [PieceTable.add_buffer]
      rw [List.getD_append _ _ _ _ hi]
  · rw [if_neg hc]
    have hne : pt.buffers ≠ [] := by
      intro hnil
      rw [hnil] at hc
      simp [List.getLast?] at hc
    refine ⟨rfl, Nat.le_refl _, ?_, fun i _ => rfl⟩
    have h0 : 0 < pt.buffers.length := List.length_pos.mpr hne
    show pt.buffers.length - 1 < pt.buffers.length
    omega

theorem getD_set_self {α : Type} (l : List α) (i : Nat) (x d : α)
    (h : i < l.length) : (l.set i x).getD i d = x := by
  rw [List.getD_eq_getElem _ _ (by simpa using h)]
  exact List.getElem_set_self _

theorem getD_set_ne {α : Type} (l : List α) (i j : Nat) (x d : α)
    (h : i ≠ j) : (l.set i x).getD j d = l.getD j d := by
  simp [List.getD_eq_getElem?_getD, List.getElem?_set_ne h]

theorem appendStep_spec (pt : PieceTable) (s : List Char) :
    (pt.appendStep s).1.pieces = pt.pieces ∧
    PieceWF (pt.appendStep s).1.buffers (pt.appendStep s).2 ∧
    (pt.appendStep s).1.piece_text (pt.appendStep s).2 = s ∧
    (∀ p : Piece, PieceWF pt.buffers p →
      PieceWF (pt.appendStep s).1.buffers p ∧
      (pt.appendStep s).1.piece_text p = pt.piece_text p) ∧
    (∀ p : Piece, PieceWF pt.buffers p →
      p.buffer_index = (pt.appendStep s).2.buffer_index →
      p.«end» ≤ (pt.appendStep s).2.start) := by
  obtain ⟨hp, hle, hlt, hdata⟩ := buffer_with_capacity_spec pt s.length
  rw [PieceTable.appendStep]
  set r := pt.buffer_with_capacity s.length with hr
  set oldb := r.1.buffers.getD r.2 ⟨[], 0⟩ with holdb
  have hsetlen : (r.1.buffers.set r.2 { oldb with data := oldb.data ++ s }).length
      = r.1.buffers.length := List.length_set _ _ _
  have hgetb : (r.1.buffers.set r.2 { oldb with data := oldb.data ++ s }).getD r.2 ⟨[], 0⟩
      = { oldb with data := oldb.data ++ s } := getD_set_self _ _ _ _ hlt
  refine ⟨hp, ?_, ?_, ?_, ?_⟩
  · refine ⟨by simpa [hsetlen] using hlt, by simp, ?_⟩
    simp only [hgetb]
    simp
  · rw [PieceTable.piece_text]
    simp only [hgetb]
    rw [List.take_of_length_le (by simp)]
    exact List.drop_left _ _
  · intro p hWFp
    obtain ⟨h1, h2, h3⟩ := hWFp
    have h1' : p.buffer_index < r.1.buffers.length := Nat.lt_of_lt_of_le h1 hle
    by_cases hbi : p.buffer_index = r.2
    · have hbl : r.2 < pt.buffers.length := hbi ▸ h1
      have holddata : oldb.data = (pt.buffers.getD r.2 ⟨[], 0⟩).data :=
        hdata r.2 hbl
      have hend : p.«end» ≤ oldb.data.length := by
        rw [holddata, ← hbi]
        exact h3
      constructor
      · refine ⟨by simpa [hsetlen] using h1', h2, ?_⟩
        rw [hbi, hgetb]
        simp only [List.length_append]
        omega
      · rw [PieceTable.piece_text, PieceTable.piece_text, hbi, hgetb]
        simp only
        rw [List.take_append_of_le_length hend, holddata]
    · constructor
      · refine ⟨by simpa [hsetlen] using h1', h2, ?_⟩
        rw [getD_set_ne _ _ _ _ _ (fun he => hbi he.symm)]
        rw [hdata p.buffer_index h1]
        exact h3
      · rw [PieceTable.piece_text, PieceTable.piece_text,
          getD_set_ne _ _ _ _ _ (fun he => hbi he.symm), hdata p.buffer_index h1]
  · intro p hWFp hbi
    obtain ⟨h1, h2, h3⟩ := hWFp
    simp only at hbi
    have hbl : r.2 < pt.buffers.length := hbi ▸ h1
    have holddata : oldb.data = (pt.buffers.getD r.2 ⟨[], 0⟩).data := hdata r.2 hbl
    simp only
    rw [holddata, ← hbi]
    exact h3

theorem insertIdx_append_cons {α : Type} (A : List α) (b x : α) (B : List α) :
    (A ++ b :: B).insertIdx (A.length + 1) x = A ++ b :: x :: B := by
  rw [insertIdx_eq_take_cons_drop _ _ _ (by simp)]
  rw [List.take_append 1, List.drop_append 1]
  simp

theorem piece_text_congr (pt pt' : PieceTable) (h : pt'.buffers = pt.buffers)
    (p : Piece) : pt'.piece_text p = pt.piece_text p := by
  rw [PieceTable.piece_text, PieceTable.piece_text, h]

theorem textSeg_congr (pt pt' : PieceTable) (h : pt'.buffers = pt.buffers)
    (l : List Piece) : textSeg pt' l = textSeg pt l := by
  rw [textSeg, textSeg]
  congr 1
  exact List.map_congr_left fun p _ => piece_text_congr pt pt' h p

@[simp] theorem Location.piece_index_new (i off : Nat) :
    (Location.new i off).piece_index = i := rfl

@[simp] theorem Location.offset_new (i off : Nat) :
    (Location.new i off).offset = off := rfl

theorem split_locate_zero (pt : PieceTable) (pos : Nat) (hWF : WF pt) :
    (pt.split (pt.locate pos) 0).1.buffers = pt.buffers ∧
    (pt.split (pt.locate pos) 0).2 ≤ (pt.split (pt.locate pos) 0).1.pieces.length ∧
    sumTake (pt.split (pt.locate pos) 0).1.pieces (pt.split (pt.locate pos) 0).2
      = min pos pt.docLen ∧
    textSeg pt (pt.split (pt.locate pos) 0).1.pieces = textSeg pt pt.pieces := by
  obtain ⟨i, off, heq, hle, hsum, hoff⟩ := locate_spec pt pos
  rw [heq]
  by_cases hi : i < pt.pieces.length
  · have hget : pt.pieces.get? i = some pt.pieces[i] := by
      rw [List.get?_eq_getElem?]
      exact List.getElem?_eq_getElem hi
    obtain ⟨hW1, hW2, hW3⟩ := hWF pt.pieces[i] (List.get?_mem hget)
    by_cases hoffz : off = 0
    · subst hoffz
      by_cases hlen : 0 < pt.pieces[i].len
      · rw [split_zero_kept pt _ 0 pt.pieces[i] hget rfl hlen]
        simp only [Location.piece_index_new]
        have hset : pt.pieces.set i (pt.pieces[i].after 0) = pt.pieces := by
          have hafter : pt.pieces[i].after 0 = pt.pieces[i] := rfl
          rw [hafter, set_eq_take_cons_drop _ _ _ hi]
          exact (eq_take_cons_drop pt.pieces i hi).symm
        rw [hset]
        exact ⟨by trivial, hle, by simpa using hsum, by trivial⟩
      · rw [split_zero_removed pt _ 0 pt.pieces[i] hget rfl (by omega)]
        simp only [Location.piece_index_new, List.eraseIdx_eq_take_drop_succ]
        refine ⟨by trivial, ?_, ?_, ?_⟩
        · simp only [List.length_append, List.length_take, List.length_drop]
          omega
        · have htk : (pt.pieces.take i ++ pt.pieces.drop (i + 1)).take i
              = pt.pieces.take i := by
            rw [List.take_append_of_le_length (by simp; omega), List.take_take]
            simp
          rw [sumTake_eq, htk, ← sumTake_eq]
          simpa using hsum
        · conv_rhs => rw [eq_take_cons_drop pt.pieces i hi]
          rw [textSeg_append, textSeg_append, textSeg_cons,
            piece_text_eq_nil pt pt.pieces[i] (by omega)]
          simp
    · have hoffp : 0 < off := Nat.pos_of_ne_zero hoffz
      obtain ⟨hilt, hofflt⟩ := hoff hoffp
      rw [getD_of_get? hget] at hofflt
      rw [split_mid_suffix pt _ 0 pt.pieces[i] hget hoffz hofflt
        (show 0 + (Location.new i off).offset < pt.pieces[i].len by
          simp only [Location.offset_new]; omega)]
      simp only [Location.piece_index_new, Location.offset_new]
      have hAlen : (pt.pieces.take i).length = i := by simp; omega
      have hof0 : pt.pieces[i].after (off + 0) = pt.pieces[i].after off := rfl
      rw [set_eq_take_cons_drop _ _ _ hi, hof0,
        show i + 1 = (pt.pieces.take i).length + 1 by rw [hAlen],
        insertIdx_append_cons]
      refine ⟨by trivial, ?_, ?_, ?_⟩
      · simp only [List.length_append, List.length_cons, hAlen, List.length_drop]
        omega
      · rw [sumTake_eq, List.take_append 1]
        simp only [List.take_succ_cons, List.take_zero]
        rw [sumLens_append, sumLens_cons, sumLens_nil, Piece.len_before]
        have hA : sumLens (pt.pieces.take i) = sumTake pt.pieces i := rfl
        omega
      · conv_rhs => rw [eq_take_cons_drop pt.pieces i hi]
        rw [textSeg_append, textSeg_append, textSeg_cons, textSeg_cons, textSeg_cons]
        rw [← piece_text_split pt pt.pieces[i] off (Nat.le_of_lt hofflt) hW2]
        have hmin : i ⊓ pt.pieces.length = i := Nat.min_eq_left (Nat.le_of_lt hi)
        simp [List.append_assoc, hmin]
  · have hnone : pt.pieces.get? i = none := List.get?_eq_none.mpr (by omega)
    have hoff0 : off = 0 := by
      by_contra hc
      exact hi (hoff (Nat.pos_of_ne_zero hc)).1
    rw [split_none pt (Location.new i off) 0 hnone]
    simp only [Location.piece_index_new]
    exact ⟨by trivial, hle, by rw [hoff0] at hsum; simpa using hsum, by trivial⟩

theorem merge_true_iff (q p : Piece) :
    (q.merge p).2 = true ↔ (p.buffer_index = q.buffer_index ∧ p.start = q.«end») := by
  rw [Piece.merge]
  by_cases h : p.buffer_index = q.buffer_index ∧ p.start = q.«end»
  · rw [if_pos h]; simpa using h
  · rw [if_neg h]; simpa using h

theorem merge_fst_of_true (q p : Piece) (h : (q.merge p).2 = true) :
    (q.merge p).1 = { buffer_index := q.buffer_index, start := q.start, «end» := p.«end» } := by
  rw [Piece.merge, if_pos ((merge_true_iff q p).mp h)]

theorem take_min_length {α : Type} (l : List α) (n : Nat) :
    l.take (min n l.length) = l.take n := by
  by_cases h : n ≤ l.length
  · rw [Nat.min_eq_left h]
  · rw [Nat.min_eq_right (by omega), List.take_length, List.take_of_length_le (by omega)]

theorem drop_min_length {α : Type} (l : List α) (n : Nat) :
    l.drop (min n l.length) = l.drop n := by
  by_cases h : n ≤ l.length
  · rw [Nat.min_eq_left h]
  · rw [Nat.min_eq_right (by omega), List.drop_length,
      List.drop_eq_nil_of_le (by omega)]

theorem insert_textSeg (pt : PieceTable) (pos : Nat) (s : List Char) (hWF : WF pt) :
    (pt.insert pos s).to_string
      = pt.to_string.take (min pos pt.docLen) ++ s
          ++ pt.to_string.drop (min pos pt.docLen) := by
  rw [insert_eq]
  obtain ⟨hp, hPwf, hPtext, hold, hlast⟩ := appendStep_spec pt s
  set a := pt.appendStep s with ha
  have hWF2 : WF a.1 := by
    intro p hmem
    rw [hp] at hmem
    exact (hold p (hWF p hmem)).1
  have hT : textSeg a.1 a.1.pieces = textSeg pt pt.pieces := by
    rw [hp, textSeg, textSeg]
    congr 1
    exact List.map_congr_left fun p hmem => (hold p (hWF p hmem)).2
  have hdoc : a.1.docLen = pt.docLen := by rw [docLen_eq, docLen_eq, hp]
  obtain ⟨hb3, hk3, hsum3, htext3⟩ := split_locate_zero a.1 pos hWF2
  set r2 := a.1.split (a.1.locate pos) 0 with hr2
  have hWF3 : WF r2.1 := split_WF a.1 _ 0 hWF2
  have hWF3' : ∀ p ∈ r2.1.pieces, PieceWF a.1.buffers p := by
    intro p hmem
    have hq := hWF3 p hmem
    rwa [hb3] at hq
  have hmain : ∀ X : List Piece,
      ({ r2.1 with pieces := X } : PieceTable).to_string = textSeg a.1 X := by
    intro X
    rw [to_string_eq_textSeg]
    exact textSeg_congr a.1 _ hb3 X
  have hfin : (if r2.2 = 0 then
        { r2.1 with pieces := r2.1.pieces.insertIdx r2.2 a.2 }
      else if ((r2.1.pieces.getD (r2.2 - 1) ⟨0, 0, 0⟩).merge a.2).2 then
        { r2.1 with pieces := r2.1.pieces.set (r2.2 - 1)
                                ((r2.1.pieces.getD (r2.2 - 1) ⟨0, 0, 0⟩).merge a.2).1 }
      else
        { r2.1 with pieces := r2.1.pieces.insertIdx r2.2 a.2 }).to_string
      = textSeg a.1 (r2.1.pieces.take r2.2) ++ s
          ++ textSeg a.1 (r2.1.pieces.drop r2.2) := by
    by_cases hk0 : r2.2 = 0
    · rw [if_pos hk0, hmain, hk0]
      rw [List.insertIdx_zero, textSeg_cons, hPtext]
      simp [textSeg]
    · rw [if_neg hk0]
      have hk1 : r2.2 - 1 < r2.1.pieces.length := by omega
      by_cases hm : ((r2.1.pieces.getD (r2.2 - 1) ⟨0, 0, 0⟩).merge a.2).2 = true
      · rw [if_pos hm, hmain]
        set Q := r2.1.pieces.getD (r2.2 - 1) ⟨0, 0, 0⟩ with hQdef
        have hQel : Q = r2.1.pieces[r2.2 - 1] := List.getD_eq_getElem _ _ hk1
        have hQmem : Q ∈ r2.1.pieces := by
          rw [hQel]; exact List.getElem_mem hk1
        have hQwf := hWF3' Q hQmem
        obtain ⟨hc1, hc2⟩ := (merge_true_iff Q a.2).mp hm
        rw [merge_fst_of_true Q a.2 hm]
        rw [set_eq_take_cons_drop _ _ _ hk1, show r2.2 - 1 + 1 = r2.2 by omega]
        rw [textSeg_append, textSeg_cons]
        rw [piece_text_merge a.1 Q a.2 hc1 hc2 hQwf.2.1 hPwf.2.1]
        have htk : r2.1.pieces.take r2.2
            = r2.1.pieces.take (r2.2 - 1) ++ [Q] := by
          conv_lhs => rw [show r2.2 = (r2.2 - 1) + 1 by omega]
          rw [List.take_succ, List.getElem?_eq_getElem hk1]
          simp [hQel]
        rw [htk, textSeg_append, textSeg_cons, hPtext]
        simp [textSeg]
      · rw [if_neg hm, hmain]
        rw [insertIdx_eq_take_cons_drop _ _ _ hk3]
        rw [textSeg_append, textSeg_cons, hPtext, List.append_assoc]
  rw [hfin]
  rw [textSeg_take a.1 r2.1.pieces hWF3' r2.2,
    textSeg_drop a.1 r2.1.pieces hWF3' r2.2, htext3, hT, hsum3, hdoc,
    to_string_eq_textSeg]

theorem insert_toString (pt : PieceTable) (pos : Nat) (s : List Char)
    (hWF : WF pt) :
    (pt.insert pos s).to_string = refInsert pt.to_string pos s := by
  rw [insert_textSeg pt pos s hWF, refInsert]
  have hlen : pt.to_string.length = pt.docLen := by
    rw [to_string_eq_textSeg, length_textSeg pt pt.pieces hWF, docLen_eq]
  rw [← hlen, take_min_length, drop_min_length]

theorem insert_WF (pt : PieceTable) (pos : Nat) (s : List Char) (hWF : WF pt) :
    WF (pt.insert pos s) := by
  rw [insert_eq]
  obtain ⟨hp, hPwf, hPtext, hold, hlast⟩ := appendStep_spec pt s
  set a := pt.appendStep s with ha
  have hWF2 : WF a.1 := by
    intro p hmem
    rw [hp] at hmem
    exact (hold p (hWF p hmem)).1
  obtain ⟨hb3, hk3, hsum3, htext3⟩ := split_locate_zero a.1 pos hWF2
  set r2 := a.1.split (a.1.locate pos) 0 with hr2
  have hWF3 : WF r2.1 := split_WF a.1 _ 0 hWF2
  have hPwf3 : PieceWF r2.1.buffers a.2 := by rw [hb3]; exact hPwf
  by_cases hk0 : r2.2 = 0
  · rw [if_pos hk0]
    intro p hmem
    rcases (List.mem_insertIdx (by omega)).mp hmem with hm | hm
    · subst hm; exact hPwf3
    · exact hWF3 p hm
  · rw [if_neg hk0]
    have hk1 : r2.2 - 1 < r2.1.pieces.length := by omega
    by_cases hm : ((r2.1.pieces.getD (r2.2 - 1) ⟨0, 0, 0⟩).merge a.2).2 = true
    · rw [if_pos hm]
      set Q := r2.1.pieces.getD (r2.2 - 1) ⟨0, 0, 0⟩ with hQdef
      have hQel : Q = r2.1.pieces[r2.2 - 1] := List.getD_eq_getElem _ _ hk1
      have hQmem : Q ∈ r2.1.pieces := by
        rw [hQel]; exact List.getElem_mem hk1
      obtain ⟨hq1, hq2, hq3⟩ := hWF3 Q hQmem
      obtain ⟨hc1, hc2⟩ := (merge_true_iff Q a.2).mp hm
      rw [merge_fst_of_true Q a.2 hm]
      intro p hmem
      rcases List.mem_or_eq_of_mem_set hmem with hmm | hmm
      · exact hWF3 p hmm
      · subst hmm
        refine ⟨hq1, ?_, ?_⟩
        · have := hPwf.2.1
          simp only
          omega
        · have h3 := hPwf3.2.2
          rw [hc1] at h3
          exact h3
    · rw [if_neg hm]
      intro p hmem
      rcases (List.mem_insertIdx hk3).mp hmem with hmm | hmm
      · subst hmm; exact hPwf3
      · exact hWF3 p hmm

theorem insert_NoEmpty (pt : PieceTable) (pos : Nat) (s : List Char)
    (hWF : WF pt) (hne : NoEmpty pt) (hs : s ≠ []) :
    NoEmpty (pt.insert pos s) := by
  rw [insert_eq]
  obtain ⟨hp, hPwf, hPtext, hold, hlast⟩ := appendStep_spec pt s
  set a := pt.appendStep s with ha
  have hWF2 : WF a.1 := by
    intro p hmem
    rw [hp] at hmem
    exact (hold p (hWF p hmem)).1
  have hne2 : NoEmpty a.1 := by
    intro p hmem
    rw [hp] at hmem
    exact hne p hmem
  have hPlen : a.2.len = s.length := by
    rw [← length_piece_text a.1 a.2 hPwf.2.2, hPtext]
  have hPpos : 0 < a.2.len := by
    rw [hPlen]
    exact List.length_pos.mpr hs
  obtain ⟨hb3, hk3, hsum3, htext3⟩ := split_locate_zero a.1 pos hWF2
  set r2 := a.1.split (a.1.locate pos) 0 with hr2
  have hne3 : NoEmpty r2.1 := split_NoEmpty a.1 _ 0 hne2
  by_cases hk0 : r2.2 = 0
  · rw [if_pos hk0]
    intro p hmem
    rcases (List.mem_insertIdx (by omega)).mp hmem with hm | hm
    · subst hm; exact hPpos
    · exact hne3 p hm
  · rw [if_neg hk0]
    have hk1 : r2.2 - 1 < r2.1.pieces.length := by omega
    by_cases hm : ((r2.1.pieces.getD (r2.2 - 1) ⟨0, 0, 0⟩).merge a.2).2 = true
    · rw [if_pos hm]
      set Q := r2.1.pieces.getD (r2.2 - 1) ⟨0, 0, 0⟩ with hQdef
      have hQel : Q = r2.1.pieces[r2.2 - 1] := List.getD_eq_getElem _ _ hk1
      have hQmem : Q ∈ r2.1.pieces := by
        rw [hQel]; exact List.getElem_mem hk1
      have hq2 := (split_WF a.1 _ 0 hWF2 Q hQmem).2.1
      obtain ⟨hc1, hc2⟩ := (merge_true_iff Q a.2).mp hm
      rw [merge_fst_of_true Q a.2 hm]
      intro p hmem
      rcases List.mem_or_eq_of_mem_set hmem with hmm | hmm
      · exact hne3 p hmm
      · subst hmm
        have hlenP := hPwf.2.1
        rw [Piece.len] at *
        simp only
        omega
    · rw [if_neg hm]
      intro p hmem
      rcases (List.mem_insertIdx hk3).mp hmem with hmm | hmm
      · subst hmm; exact hPpos
      · exact hne3 p hmm

theorem sumTake_add_drop (l : List Piece) (n : Nat) :
    sumTake l n + sumLens (l.drop n) = sumLens l := by
  rw [sumTake_eq, ← sumLens_append, List.take_append_drop]

theorem sumTake_le (l : List Piece) (n : Nat) : sumTake l n ≤ sumLens l := by
  have := sumTake_add_drop l n
  omega

theorem deleteLoop_buffers :
    ∀ (fuel : Nat) (pt : PieceTable) (index len : Nat),
    (deleteLoop pt index len fuel).buffers = pt.buffers := by
  intro fuel
  induction fuel with
  | zero => intro pt index len; rfl
  | succ f ih =>
    intro pt index len
    rw [deleteLoop]
    by_cases h : 0 < len ∧ index < pt.pieces.length
    · rw [if_pos h, ih, split_buffers]
    · rw [if_neg h]

theorem deleteLoop_WF :
    ∀ (fuel : Nat) (pt : PieceTable) (index len : Nat), WF pt →
    WF (deleteLoop pt index len fuel) := by
  intro fuel
  induction fuel with
  | zero => intro pt index len h; exact h
  | succ f ih =>
    intro pt index len h
    rw [deleteLoop]
    by_cases hc : 0 < len ∧ index < pt.pieces.length
    · rw [if_pos hc]
      exact ih _ _ _ (split_WF pt _ _ h)
    · rw [if_neg hc]
      exact h

theorem deleteLoop_NoEmpty :
    ∀ (fuel : Nat) (pt : PieceTable) (index len : Nat), NoEmpty pt →
    NoEmpty (deleteLoop pt index len fuel) := by
  intro fuel
  induction fuel with
  | zero => intro pt index len h; exact h
  | succ f ih =>
    intro pt index len h
    rw [deleteLoop]
    by_cases hc : 0 < len ∧ index < pt.pieces.length
    · rw [if_pos hc]
      exact ih _ _ _ (split_NoEmpty pt _ _ h)
    · rw [if_neg hc]
      exact h

theorem textSeg_drop_cons (pt : PieceTable) (hWF : WF pt) (index : Nat)
    (hidx : index < pt.pieces.length) :
    (textSeg pt pt.pieces).drop (sumTake pt.pieces index)
      = pt.piece_text pt.pieces[index] ++ textSeg pt (pt.pieces.drop (index + 1)) := by
  rw [← textSeg_drop pt pt.pieces hWF index, List.drop_eq_getElem_cons hidx,
    textSeg_cons]

theorem deleteLoop_textSeg :
    ∀ (fuel : Nat) (pt : PieceTable) (index len : Nat), WF pt →
    pt.pieces.length - index + len ≤ fuel →
    textSeg pt (deleteLoop pt index len fuel).pieces
      = (textSeg pt pt.pieces).take (sumTake pt.pieces index)
        ++ (textSeg pt pt.pieces).drop (sumTake pt.pieces index + len) := by
  intro fuel
  induction fuel with
  | zero =>
    intro pt index len hWF hfuel
    have hlen0 : len = 0 := by omega
    have hidx : pt.pieces.length ≤ index := by omega
    subst hlen0
    rw [deleteLoop, sumTake_of_ge _ _ hidx]
    have hT : (textSeg pt pt.pieces).length = sumLens pt.pieces :=
      length_textSeg pt pt.pieces hWF
    rw [Nat.add_zero, List.take_of_length_le (by omega),
      List.drop_eq_nil_of_le (by omega)]
    simp
  | succ f ih =>
    intro pt index len hWF hfuel
    by_cases hc : 0 < len ∧ index < pt.pieces.length
    · obtain ⟨hlen, hidx⟩ := hc
      have hstep : deleteLoop pt index len (f + 1)
          = deleteLoop (pt.split (Location.new index 0)
              (min len (pt.pieces.getD index ⟨0, 0, 0⟩).len)).1 index
              (len - min len (pt.pieces.getD index ⟨0, 0, 0⟩).len) f := by
        rw [deleteLoop, if_pos ⟨hlen, hidx⟩]
      rw [hstep]
      have hget : pt.pieces.get? index = some pt.pieces[index] := by
        rw [List.get?_eq_getElem?]
        exact List.getElem?_eq_getElem hidx
      have hgetD : pt.pieces.getD index ⟨0, 0, 0⟩ = pt.pieces[index] :=
        List.getD_eq_getElem _ _ hidx
      obtain ⟨hW1, hW2, hW3⟩ := hWF pt.pieces[index] (List.get?_mem hget)
      have hT : (textSeg pt pt.pieces).length = sumLens pt.pieces :=
        length_textSeg pt pt.pieces hWF
      have hcle : sumTake pt.pieces index ≤ (textSeg pt pt.pieces).length := by
        rw [hT]; exact sumTake_le _ _
      have htake : textSeg pt (pt.pieces.take index)
          = (textSeg pt pt.pieces).take (sumTake pt.pieces index) :=
        textSeg_take pt pt.pieces hWF index
      have hdropc := textSeg_drop_cons pt hWF index hidx
      rw [hgetD]
      by_cases hpl : len < pt.pieces[index].len
      · -- the piece survives: gap = len, the loop ends after this step
        have hmin : min len pt.pieces[index].len = len := Nat.min_eq_left (by omega)
        rw [hmin]
        have hsplit := split_zero_kept pt (Location.new index 0) len
          pt.pieces[index] hget rfl hpl
        rw [Nat.sub_self, hsplit]
        simp only [Location.piece_index_new]
        have hWF' : WF ({ pt with
            pieces := pt.pieces.set index (pt.pieces[index].after len) } : PieceTable) := by
          have hW := split_WF pt (Location.new index 0) len hWF
          rw [hsplit] at hW
          simpa using hW
        have hlen' : (pt.pieces.set index (pt.pieces[index].after len)).length
            = pt.pieces.length := List.length_set _ _ _
        have hih := ih { pt with
            pieces := pt.pieces.set index (pt.pieces[index].after len) } index 0 hWF'
          (by simp only [hlen']; omega)
        simp only [textSeg_pieces] at hih
        rw [Nat.add_zero, List.take_append_drop] at hih
        rw [hih]
        rw [set_eq_take_cons_drop _ _ _ hidx, textSeg_append, textSeg_cons, htake]
        congr 1
        have hbwf : (pt.pieces[index].before len).«end»
            ≤ (pt.buffers.getD (pt.pieces[index].before len).buffer_index
                ⟨[], 0⟩).data.length := by
          simp only [Piece.before]
          rw [Piece.len] at hpl
          omega
        have hbtext : (pt.piece_text (pt.pieces[index].before len)).length = len := by
          rw [length_piece_text pt _ hbwf, Piece.len_before]
        rw [← List.drop_drop len (sumTake pt.pieces index) (textSeg pt pt.pieces), hdropc,
          ← piece_text_split pt pt.pieces[index] len (by omega) hW2,
          List.append_assoc, List.drop_append_eq_append_drop, hbtext, Nat.sub_self,
          List.drop_zero, List.drop_eq_nil_of_le (Nat.le_of_eq hbtext)]
        simp
      · have hple : pt.pieces[index].len ≤ len := by omega
        have hmin : min len pt.pieces[index].len = pt.pieces[index].len :=
          Nat.min_eq_right hple
        rw [hmin]
        have hsplit := split_zero_removed pt (Location.new index 0)
          pt.pieces[index].len pt.pieces[index] hget rfl (Nat.le_refl _)
        rw [hsplit]
        simp only [Location.piece_index_new]
        have hWF' : WF ({ pt with pieces := pt.pieces.eraseIdx index } : PieceTable) := by
          have hW := split_WF pt (Location.new index 0) pt.pieces[index].len hWF
          rw [hsplit] at hW
          simpa using hW
        have hlen' : (pt.pieces.eraseIdx index).length = pt.pieces.length - 1 := by
          rw [List.length_eraseIdx, if_pos hidx]
        have hih := ih { pt with pieces := pt.pieces.eraseIdx index } index
          (len - pt.pieces[index].len) hWF' (by simp only [hlen']; omega)
        simp only [textSeg_pieces] at hih
        rw [hih]
        have hptlen : (pt.piece_text pt.pieces[index]).length = pt.pieces[index].len :=
          length_piece_text pt _ hW3
        have hXtake : (pt.pieces.eraseIdx index).take index = pt.pieces.take index := by
          rw [List.eraseIdx_eq_take_drop_succ,
            List.take_append_of_le_length (by simp; omega), List.take_take]
          simp
        have hXseg : textSeg pt (pt.pieces.eraseIdx index)
            = (textSeg pt pt.pieces).take (sumTake pt.pieces index)
              ++ (textSeg pt pt.pieces).drop
                  (sumTake pt.pieces index + pt.pieces[index].len) := by
          rw [List.eraseIdx_eq_take_drop_succ, textSeg_append, htake]
          congr 1
          rw [← List.drop_drop pt.pieces[index].len (sumTake pt.pieces index)
              (textSeg pt pt.pieces),
            hdropc, List.drop_append_eq_append_drop, hptlen,
            Nat.sub_self, List.drop_zero, List.drop_eq_nil_of_le (Nat.le_of_eq hptlen)]
          simp
        have hc' : sumTake (pt.pieces.eraseIdx index) index = sumTake pt.pieces index := by
          rw [sumTake_eq, sumTake_eq, hXtake]
        rw [hc', hXseg]
        have hctake : ((textSeg pt pt.pieces).take (sumTake pt.pieces index)).length
            = sumTake pt.pieces index := by
          rw [List.length_take]
          omega
        have h1 : ((textSeg pt pt.pieces).take (sumTake pt.pieces index)
              ++ (textSeg pt pt.pieces).drop
                  (sumTake pt.pieces index + pt.pieces[index].len)).take
              (sumTake pt.pieces index)
            = (textSeg pt pt.pieces).take (sumTake pt.pieces index) := by
          rw [List.take_append_eq_append_take, hctake, Nat.sub_self, List.take_zero,
            List.take_take]
          simp
        have h2 : ((textSeg pt pt.pieces).take (sumTake pt.pieces index)
              ++ (textSeg pt pt.pieces).drop
                  (sumTake pt.pieces index + pt.pieces[index].len)).drop
              (sumTake pt.pieces index + (len - pt.pieces[index].len))
            = (textSeg pt pt.pieces).drop (sumTake pt.pieces index + len) := by
          rw [List.drop_append_eq_append_drop,
            List.drop_eq_nil_of_le (by rw [hctake]; omega), hctake,
            show sumTake pt.pieces index + (len - pt.pieces[index].len)
                - sumTake pt.pieces index = len - pt.pieces[index].len by omega,
            List.drop_drop,
            show sumTake pt.pieces index + pt.pieces[index].len
                + (len - pt.pieces[index].len) = sumTake pt.pieces index + len by omega]
          simp
        rw [h1, h2]
    · rw [deleteLoop, if_neg hc]
      by_cases hl : len = 0
      · subst hl
        rw [Nat.add_zero, List.take_append_drop]
      · have hidx : pt.pieces.length ≤ index := by
          rcases Nat.lt_or_ge index pt.pieces.length with h1 | h1
          · exact absurd ⟨by omega, h1⟩ hc
          · exact h1
        rw [sumTake_of_ge _ _ hidx]
        have hT : (textSeg pt pt.pieces).length = sumLens pt.pieces :=
          length_textSeg pt pt.pieces hWF
        rw [List.take_of_length_le (by omega), List.drop_eq_nil_of_le (by omega)]
        simp

/-- `delete` unfolded: the locate, the first (mid-piece) split and the loop. -/
theorem delete_eq (pt : PieceTable) (position len : Nat) :
    pt.delete position len =
      (if 0 < (pt.locate position).offset then
        deleteLoop (pt.split (pt.locate position) len).1
          ((pt.locate position).piece_index + 1)
          (len - min len ((pt.pieces.getD (pt.locate position).piece_index
              ⟨0, 0, 0⟩).len - (pt.locate position).offset))
          ((pt.split (pt.locate position) len).1.pieces.length
            + (len - min len ((pt.pieces.getD (pt.locate position).piece_index
                ⟨0, 0, 0⟩).len - (pt.locate position).offset)))
      else
        deleteLoop pt (pt.locate position).piece_index len
          (pt.pieces.length + len)) := rfl

theorem delete_WF (pt : PieceTable) (position len : Nat) (hWF : WF pt) :
    WF (pt.delete position len) := by
  rw [delete_eq]
  by_cases h : 0 < (pt.locate position).offset
  · rw [if_pos h]
    exact deleteLoop_WF _ _ _ _ (split_WF pt _ _ hWF)
  · rw [if_neg h]
    exact deleteLoop_WF _ _ _ _ hWF

theorem delete_NoEmpty (pt : PieceTable) (position len : Nat) (hne : NoEmpty pt) :
    NoEmpty (pt.delete position len) := by
  rw [delete_eq]
  by_cases h : 0 < (pt.locate position).offset
  · rw [if_pos h]
    exact deleteLoop_NoEmpty _ _ _ _ (split_NoEmpty pt _ _ hne)
  · rw [if_neg h]
    exact deleteLoop_NoEmpty _ _ _ _ hne

@[simp] theorem pieces_mk (bufs : List Buffer) (ps : List Piece) :
    ({ buffers := bufs, pieces := ps } : PieceTable).pieces = ps := rfl

@[simp] theorem buffers_mk (bufs : List Buffer) (ps : List Piece) :
    ({ buffers := bufs, pieces := ps } : PieceTable).buffers = bufs := rfl

theorem sumTake_succ (l : List Piece) (i : Nat) (h : i < l.length) :
    sumTake l (i + 1) = sumTake l i + l[i].len := by
  rw [sumTake_eq, sumTake_eq, List.take_succ, List.getElem?_eq_getElem h,
    show (some l[i]).toList = [l[i]] from rfl, sumLens_append, sumLens_cons,
    sumLens_nil]
  omega

theorem delete_toString (pt : PieceTable) (position len : Nat) (hWF : WF pt) :
    (pt.delete position len).to_string = refDelete pt.to_string position len := by
  obtain ⟨i, off, heq, hle, hsum, hoff⟩ := locate_spec pt position
  have hT : (textSeg pt pt.pieces).length = sumLens pt.pieces :=
    length_textSeg pt pt.pieces hWF
  have hdocl : pt.docLen = sumLens pt.pieces := docLen_eq pt
  rw [refDelete, to_string_eq_textSeg, delete_eq, heq]
  simp only [Location.piece_index_new, Location.offset_new]
  by_cases hoffp : 0 < off
  · rw [if_pos hoffp]
    obtain ⟨hilt, hofflt⟩ := hoff hoffp
    have hget : pt.pieces.get? i = some pt.pieces[i] := by
      rw [List.get?_eq_getElem?]
      exact List.getElem?_eq_getElem hilt
    rw [getD_of_get? hget] at hofflt ⊢
    obtain ⟨hW1, hW2, hW3⟩ := hWF pt.pieces[i] (List.get?_mem hget)
    have hss := sumTake_succ pt.pieces i hilt
    have hsle := sumTake_le pt.pieces (i + 1)
    have hsle' : sumTake pt.pieces (i + 1) ≤ pt.docLen := by rw [hdocl]; exact hsle
    have hposition : sumTake pt.pieces i + off = position := by omega
    have hposle : position ≤ pt.docLen := by omega
    have htake : textSeg pt (pt.pieces.take i)
        = (textSeg pt pt.pieces).take (sumTake pt.pieces i) :=
      textSeg_take pt pt.pieces hWF i
    have hdropc := textSeg_drop_cons pt hWF i hilt
    have hptlen : (pt.piece_text pt.pieces[i]).length = pt.pieces[i].len :=
      length_piece_text pt _ hW3
    have hcle : sumTake pt.pieces i ≤ (textSeg pt pt.pieces).length := by
      rw [hT]
      exact sumTake_le _ _
    have htakepos : (textSeg pt pt.pieces).take position
        = (textSeg pt pt.pieces).take (sumTake pt.pieces i)
          ++ pt.piece_text (pt.pieces[i].before off) := by
      rw [← hposition, List.take_add, ← htake, htake, hdropc]
      congr 1
      have hbwf : (pt.pieces[i].before off).«end»
          ≤ (pt.buffers.getD (pt.pieces[i].before off).buffer_index
              ⟨[], 0⟩).data.length := by
        simp only [Piece.before]
        rw [Piece.len] at hofflt
        omega
      have hbtext : (pt.piece_text (pt.pieces[i].before off)).length = off := by
        rw [length_piece_text pt _ hbwf, Piece.len_before]
      rw [← piece_text_split pt pt.pieces[i] off (Nat.le_of_lt hofflt) hW2,
        List.append_assoc, List.take_append_eq_append_take, hbtext, Nat.sub_self,
        List.take_zero, List.take_of_length_le (Nat.le_of_eq hbtext)]
      simp
    by_cases hgap : len + off < pt.pieces[i].len
    · -- suffix survives; the loop then has nothing left to delete
      have hmin : min len (pt.pieces[i].len - off) = len := by
        rw [Nat.min_eq_left]
        omega
      rw [hmin, Nat.sub_self]
      have hsplit := split_mid_suffix pt (Location.new i off) len pt.pieces[i] hget
        (by simp only [Location.offset_new]; omega) hofflt
        (by simp only [Location.offset_new]; omega)
      rw [hsplit]
      simp only [Location.piece_index_new, Location.offset_new]
      have hWF2 := split_WF pt (Location.new i off) len hWF
      rw [hsplit] at hWF2
      have hloop := deleteLoop_textSeg
        (((pt.pieces.set i (pt.pieces[i].before off)).insertIdx (i + 1)
            (pt.pieces[i].after (off + len))).length + 0)
        { pt with pieces := (pt.pieces.set i (pt.pieces[i].before off)).insertIdx
                              (i + 1) (pt.pieces[i].after (off + len)) }
        (i + 1) 0 (by simpa using hWF2) (by simp)
      simp only [textSeg_pieces, pieces_mk] at hloop
      have hbuf : (deleteLoop { pt with
            pieces := (pt.pieces.set i (pt.pieces[i].before off)).insertIdx
                        (i + 1) (pt.pieces[i].after (off + len)) } (i + 1) 0
            (((pt.pieces.set i (pt.pieces[i].before off)).insertIdx (i + 1)
              (pt.pieces[i].after (off + len))).length + 0)).buffers = pt.buffers := by
        rw [deleteLoop_buffers]
      rw [to_string_eq_textSeg, textSeg_congr pt _ hbuf, hloop]
      simp only [Nat.add_zero, List.take_append_drop]
      have hAlen : (pt.pieces.take i).length = i := by simp; omega
      have hshape : (pt.pieces.set i (pt.pieces[i].before off)).insertIdx (i + 1)
          (pt.pieces[i].after (off + len))
          = pt.pieces.take i ++ pt.pieces[i].before off ::
              pt.pieces[i].after (off + len) :: pt.pieces.drop (i + 1) := by
        rw [set_eq_take_cons_drop _ _ _ hilt,
          show i + 1 = (pt.pieces.take i).length + 1 by rw [hAlen],
          insertIdx_append_cons, hAlen]
      rw [hshape, textSeg_append, textSeg_cons, textSeg_cons, htake, htakepos]
      have hawf : (pt.pieces[i].before (off + len)).«end»
          ≤ (pt.buffers.getD (pt.pieces[i].before (off + len)).buffer_index
              ⟨[], 0⟩).data.length := by
        simp only [Piece.before]
        rw [Piece.len] at hgap
        omega
      have hatext : (pt.piece_text (pt.pieces[i].before (off + len))).length
          = off + len := by
        rw [length_piece_text pt _ hawf, Piece.len_before]
      have hdrop2 : (textSeg pt pt.pieces).drop (position + len)
          = pt.piece_text (pt.pieces[i].after (off + len))
            ++ textSeg pt (pt.pieces.drop (i + 1)) := by
        rw [← hposition, show sumTake pt.pieces i + off + len
            = sumTake pt.pieces i + (off + len) by omega]
        rw [← List.drop_drop (off + len) (sumTake pt.pieces i) (textSeg pt pt.pieces),
          hdropc,
          ← piece_text_split pt pt.pieces[i] (off + len) (by omega) hW2,
          List.append_assoc, List.drop_append_eq_append_drop, hatext, Nat.sub_self,
          List.drop_zero, List.drop_eq_nil_of_le (Nat.le_of_eq hatext)]
        simp
      rw [hdrop2]
      simp [List.append_assoc]
    · -- the whole tail of the piece is cut; the loop continues from the next piece
      have hmin : min len (pt.pieces[i].len - off) = pt.pieces[i].len - off := by
        rw [Nat.min_eq_right]
        omega
      rw [hmin]
      have hsplit := split_mid_cut pt (Location.new i off) len pt.pieces[i] hget
        (by simp only [Location.offset_new]; omega) hofflt
        (by simp only [Location.offset_new]; omega)
      rw [hsplit]
      simp only [Location.piece_index_new, Location.offset_new]
      have hWF2 := split_WF pt (Location.new i off) len hWF
      rw [hsplit] at hWF2
      have hloop := deleteLoop_textSeg
        ((pt.pieces.set i (pt.pieces[i].before off)).length
          + (len - (pt.pieces[i].len - off)))
        { pt with pieces := pt.pieces.set i (pt.pieces[i].before off) }
        (i + 1) (len - (pt.pieces[i].len - off)) (by simpa using hWF2)
        (by simp only [pieces_mk, List.length_set]; omega)
      simp only [textSeg_pieces, pieces_mk] at hloop
      have hbuf : (deleteLoop { pt with
            pieces := pt.pieces.set i (pt.pieces[i].before off) } (i + 1)
            (len - (pt.pieces[i].len - off))
            ((pt.pieces.set i (pt.pieces[i].before off)).length
              + (len - (pt.pieces[i].len - off)))).buffers = pt.buffers := by
        rw [deleteLoop_buffers]
      rw [to_string_eq_textSeg, textSeg_congr pt _ hbuf, hloop]
      have hAlen : (pt.pieces.take i).length = i := by simp; omega
      have hshape : pt.pieces.set i (pt.pieces[i].before off)
          = pt.pieces.take i ++ pt.pieces[i].before off :: pt.pieces.drop (i + 1) :=
        set_eq_take_cons_drop _ _ _ hilt
      have hbwf : (pt.pieces[i].before off).«end»
          ≤ (pt.buffers.getD (pt.pieces[i].before off).buffer_index
              ⟨[], 0⟩).data.length := by
        simp only [Piece.before]
        rw [Piece.len] at hofflt
        omega
      have hbtext : (pt.piece_text (pt.pieces[i].before off)).length = off := by
        rw [length_piece_text pt _ hbwf, Piece.len_before]
      have hsum2 : sumTake (pt.pieces.set i (pt.pieces[i].before off)) (i + 1)
          = position := by
        rw [hshape, sumTake_eq,
          show i + 1 = (pt.pieces.take i).length + 1 by rw [hAlen],
          List.take_append 1]
        simp only [List.take_succ_cons, List.take_zero]
        rw [sumLens_append, sumLens_cons, sumLens_nil, Piece.len_before]
        have hA : sumLens (pt.pieces.take i) = sumTake pt.pieces i := rfl
        omega
      have hY : textSeg pt (pt.pieces.set i (pt.pieces[i].before off))
          = (textSeg pt pt.pieces).take position
            ++ textSeg pt (pt.pieces.drop (i + 1)) := by
        rw [hshape, textSeg_append, textSeg_cons, htake, htakepos,
          List.append_assoc]
      have hYlen : ((textSeg pt pt.pieces).take position).length = position := by
        rw [List.length_take]
        omega
      rw [hsum2, hY]
      have h1 : ((textSeg pt pt.pieces).take position
            ++ textSeg pt (pt.pieces.drop (i + 1))).take position
          = (textSeg pt pt.pieces).take position := by
        rw [List.take_append_eq_append_take, hYlen, Nat.sub_self, List.take_zero,
          List.take_take]
        simp
      have hdropD : textSeg pt (pt.pieces.drop (i + 1))
          = (textSeg pt pt.pieces).drop (sumTake pt.pieces i + pt.pieces[i].len) := by
        rw [← List.drop_drop pt.pieces[i].len (sumTake pt.pieces i)
            (textSeg pt pt.pieces), hdropc, List.drop_append_eq_append_drop, hptlen,
          Nat.sub_self, List.drop_zero, List.drop_eq_nil_of_le (Nat.le_of_eq hptlen)]
        simp
      have h2 : ((textSeg pt pt.pieces).take position
            ++ textSeg pt (pt.pieces.drop (i + 1))).drop
            (position + (len - (pt.pieces[i].len - off)))
          = (textSeg pt pt.pieces).drop (position + len) := by
        rw [List.drop_append_eq_append_drop,
          List.drop_eq_nil_of_le (by rw [hYlen]; omega), hYlen,
          show position + (len - (pt.pieces[i].len - off)) - position
              = len - (pt.pieces[i].len - off) by omega,
          hdropD, List.drop_drop,
          show sumTake pt.pieces i + pt.pieces[i].len
              + (len - (pt.pieces[i].len - off)) = position + len by omega]
        simp
      rw [h1, h2]
  · rw [if_neg hoffp]
    have hoff0 : off = 0 := by omega
    subst hoff0
    have hloop := deleteLoop_textSeg (pt.pieces.length + len) pt i len hWF (by omega)
    have hbuf : (deleteLoop pt i len (pt.pieces.length + len)).buffers
        = pt.buffers := deleteLoop_buffers _ _ _ _
    rw [to_string_eq_textSeg, textSeg_congr pt _ hbuf, hloop]
    have hmin : sumTake pt.pieces i = min position pt.docLen := by
      simpa using hsum
    by_cases hpd : position ≤ pt.docLen
    · rw [hmin, Nat.min_eq_left hpd]
    · have hsd : sumTake pt.pieces i = pt.docLen := by
        rw [hmin, Nat.min_eq_right (by omega)]
      rw [hsd, hdocl, ← hT, List.take_length, List.take_of_length_le (by omega),
        List.drop_eq_nil_of_le (by omega), List.drop_eq_nil_of_le (by omega)]

theorem deleteLoop_out :
    ∀ (fuel : Nat) (pt : PieceTable) (index len : Nat),
    pt.pieces.length ≤ index → deleteLoop pt index len fuel = pt
  | 0, _, _, _, _ => rfl
  | f + 1, pt, index, len, h => by
    rw [deleteLoop, if_neg (by omega)]

theorem WF_new : WF PieceTable.new := by
  intro p hp
  simp [PieceTable.new] at hp

theorem NoEmpty_new : NoEmpty PieceTable.new := by
  intro p hp
  simp [PieceTable.new] at hp

theorem WF_from_string (s : List Char) : WF (PieceTable.from_string s) := by
  intro p hp
  simp only [PieceTable.from_string, List.mem_singleton] at hp
  subst hp
  exact ⟨by simp [PieceTable.from_string], by simp, by simp [PieceTable.from_string]⟩

theorem NoEmpty_from_string (s : List Char) (hs : s ≠ []) :
    NoEmpty (PieceTable.from_string s) := by
  intro p hp
  simp only [PieceTable.from_string, List.mem_singleton] at hp
  subst hp
  have : 0 < s.length := List.length_pos.mpr hs
  simp [Piece.len]
  omega

theorem to_string_new : PieceTable.new.to_string = [] := rfl

theorem to_string_from_string (s : List Char) :
    (PieceTable.from_string s).to_string = s := by
  simp [PieceTable.to_string, PieceTable.from_string, PieceTable.piece_text]

theorem docLen_from_string (s : List Char) :
    (PieceTable.from_string s).docLen = s.length := by
  simp [PieceTable.docLen, PieceTable.from_string, Piece.len]

theorem reachable_WF (pt : PieceTable) (h : Reachable pt) : WF pt := by
  induction h with
  | new => exact WF_new
  | from_string s => exact WF_from_string s
  | insert pt position s _ ih => exact insert_WF pt position s ih
  | delete pt position len _ ih => exact delete_WF pt position len ih

theorem reachableNE_WF_NoEmpty (pt : PieceTable) (h : ReachableNE pt) :
    WF pt ∧ NoEmpty pt := by
  induction h with
  | new => exact ⟨WF_new, NoEmpty_new⟩
  | from_string s hs => exact ⟨WF_from_string s, NoEmpty_from_string s hs⟩
  | insert pt position s hs _ ih =>
    exact ⟨insert_WF pt position s ih.1, insert_NoEmpty pt position s ih.1 ih.2 hs⟩
  | delete pt position len _ ih =>
    exact ⟨delete_WF pt position len ih.1, delete_NoEmpty pt position len ih.2⟩

theorem applyOp_WF (pt : PieceTable) (op : EditOp) (h : WF pt) :
    WF (pt.applyOp op) := by
  cases op with
  | ins position s => exact insert_WF pt position s h
  | del position len => exact delete_WF pt position len h

theorem applyOp_toString (pt : PieceTable) (op : EditOp) (h : WF pt) :
    (pt.applyOp op).to_string = refApplyOp pt.to_string op := by
  cases op with
  | ins position s => exact insert_toString pt position s h
  | del position len => exact delete_toString pt position len h

theorem applyOps_spec (ops : List EditOp) :
    ∀ pt : PieceTable, WF pt →
    WF (pt.applyOps ops) ∧ (pt.applyOps ops).to_string = refApplyOps pt.to_string ops := by
  induction ops with
  | nil => intro pt h; exact ⟨h, rfl⟩
  | cons op rest ih =>
    intro pt h
    have e1 : pt.applyOps (op :: rest) = (pt.applyOp op).applyOps rest := rfl
    have e2 : refApplyOps pt.to_string (op :: rest)
        = refApplyOps (refApplyOp pt.to_string op) rest := rfl
    rw [e1, e2, ← applyOp_toString pt op h]
    exact ih (pt.applyOp op) (applyOp_WF pt op h)

theorem insert_clamp_state (pt : PieceTable) (pos : Nat) (s : List Char)
    (hne : NoEmpty pt) (hge : pt.docLen ≤ pos) :
    pt.insert pos s = pt.insert pt.docLen s := by
  rw [insert_eq, insert_eq]
  have hp := (appendStep_spec pt s).1
  have hne2 : NoEmpty (pt.appendStep s).1 := fun p hm => hne p (hp ▸ hm)
  have hdoc2 : (pt.appendStep s).1.docLen = pt.docLen := by
    rw [docLen_eq, docLen_eq, hp]
  have h1 : (pt.appendStep s).1.locate pos
      = Location.new (pt.appendStep s).1.pieces.length 0 :=
    locate_ge _ pos hne2 (by omega)
  have h2 : (pt.appendStep s).1.locate pt.docLen
      = Location.new (pt.appendStep s).1.pieces.length 0 :=
    locate_ge _ _ hne2 (by omega)
  rw [h1, h2]

theorem delete_noop (pt : PieceTable) (pos len : Nat)
    (hne : NoEmpty pt) (hge : pt.docLen ≤ pos) :
    pt.delete pos len = pt := by
  rw [delete_eq, locate_ge pt pos hne hge]
  simp only [Location.offset_new, Location.piece_index_new]
  rw [if_neg (by omega)]
  exact deleteLoop_out _ pt _ len (Nat.le_refl _)

/-! ## Adjacency-invariant machinery for `insert` -/

theorem noAdj_take (l : List Piece) (j : Nat) (h : NoAdj l) : NoAdj (l.take j) := by
  rw [NoAdj] at h ⊢
  have h2 : List.Chain' (fun q p => ¬ Mergeable q p) (l.take j ++ l.drop j) := by
    rwa [List.take_append_drop]
  exact (List.chain'_append.mp h2).1

theorem noAdj_drop (l : List Piece) (j : Nat) (h : NoAdj l) : NoAdj (l.drop j) := by
  rw [NoAdj] at h ⊢
  have h2 : List.Chain' (fun q p => ¬ Mergeable q p) (l.take j ++ l.drop j) := by
    rwa [List.take_append_drop]
  exact (List.chain'_append.mp h2).2.1

theorem noAdj_glue (A : List Piece) (x : Piece) (B : List Piece)
    (hA : NoAdj A) (hB : NoAdj B)
    (hax : ∀ w, A.getLast? = some w → ¬ Mergeable w x)
    (hxb : ∀ w, B.head? = some w → ¬ Mergeable x w) :
    NoAdj (A ++ x :: B) := by
  rw [NoAdj, List.chain'_append]
  refine ⟨hA, ?_, ?_⟩
  · rw [List.chain'_cons']
    exact ⟨fun y hy => hxb y (Option.mem_def.mp hy), hB⟩
  · intro w hw y hy
    simp only [List.head?_cons, Option.mem_def, Option.some.injEq] at hy
    subst hy
    exact hax w (Option.mem_def.mp hw)

theorem noAdj_pair (l : List Piece) (j : Nat) (h : NoAdj l) (hj : j + 1 < l.length) :
    ¬ Mergeable (l.get ⟨j, by omega⟩) (l.get ⟨j + 1, hj⟩) := by
  rw [NoAdj, List.chain'_iff_get] at h
  exact h j (by omega)

theorem getLast?_take_eq {α : Type} (l : List α) (j : Nat) (hj0 : 0 < j)
    (hjl : j ≤ l.length) :
    (l.take j).getLast? = some (l.get ⟨j - 1, by omega⟩) := by
  rw [List.getLast?_take, if_neg (by omega)]
  rw [List.getElem?_eq_getElem (by omega), List.get_eq_getElem]
  rfl

theorem head?_drop_eq {α : Type} (l : List α) (j : Nat) (hj : j < l.length) :
    (l.drop j).head? = some (l.get ⟨j, hj⟩) := by
  rw [List.head?_drop, List.getElem?_eq_getElem hj, List.get_eq_getElem]

theorem head?_drop_mem {α : Type} (l : List α) (j : Nat) (w : α)
    (h : (l.drop j).head? = some w) : w ∈ l :=
  List.mem_of_mem_drop (List.mem_of_mem_head? (Option.mem_def.mpr h))

theorem getD_append_lt {α : Type} (A B : List α) (d : α) (j : Nat)
    (hj : j < A.length) :
    (A ++ B).getD j d = A.getD j d := by
  rw [List.getD_eq_getElem _ _ (by rw [List.length_append]; omega),
    List.getD_eq_getElem _ _ hj]
  exact List.getElem_append_left hj

theorem getD_append_length {α : Type} (A : List α) (x : α) (B : List α)
    (d : α) (j : Nat) (hj : j = A.length) :
    (A ++ x :: B).getD j d = x := by
  subst hj
  rw [List.getD_eq_getElem _ _ (by simp)]
  rw [List.getElem_append_right (Nat.le_refl _)]
  simp

theorem insertIdx_append_left {α : Type} (A B : List α) (x : α) :
    (A ++ B).insertIdx A.length x = A ++ x :: B := by
  rw [insertIdx_eq_take_cons_drop _ _ _ (by simp)]
  rw [List.take_left, List.drop_left]

theorem mergeable_congr_right (w q m : Piece)
    (hbi : m.buffer_index = q.buffer_index) (hst : m.start = q.start) :
    Mergeable w m ↔ Mergeable w q := by
  rw [Mergeable, Mergeable, hbi, hst]

theorem mergeable_congr_left (q w m : Piece)
    (hbi : m.buffer_index = q.buffer_index) (hend : m.«end» = q.«end») :
    Mergeable m w ↔ Mergeable q w := by
  rw [Mergeable, Mergeable, hbi, hend]

theorem noAdj_pair_idx (l : List Piece) (j1 j2 : Nat) (h : NoAdj l)
    (h1 : j1 + 1 = j2) (h2 : j2 < l.length) :
    ¬ Mergeable (l.get ⟨j1, by omega⟩) (l.get ⟨j2, h2⟩) := by
  subst h1
  rw [NoAdj, List.chain'_iff_get] at h
  exact h j1 (by omega)

theorem noAdj_ins_nomerge (P : Piece) (U V : List Piece) (d : Piece)
    (hU : NoAdj U) (hV : NoAdj V)
    (hPV : ∀ w, V.head? = some w → ¬ Mergeable P w)
    (hm : 0 < U.length → (((U ++ V).getD (U.length - 1) d).merge P).2 ≠ true) :
    NoAdj ((U ++ V).insertIdx U.length P) := by
  rw [insertIdx_append_left]
  refine noAdj_glue U P V hU hV ?_ hPV
  intro w hw
  have hUne : 0 < U.length := by
    by_contra h0
    rw [List.length_eq_zero.mp (show U.length = 0 by omega), List.getLast?_nil] at hw
    exact absurd hw (by simp)
  have hw2 : U.getLast? = some (U.get ⟨U.length - 1, by omega⟩) := by
    conv_lhs => rw [← List.take_length U]
    exact getLast?_take_eq U U.length hUne (Nat.le_refl _)
  rw [hw2] at hw
  have hww := Option.some.inj hw
  subst hww
  intro hMerg
  obtain ⟨hbi, hst⟩ := hMerg
  refine hm hUne ?_
  rw [merge_true_iff]
  have hQ : (U ++ V).getD (U.length - 1) d = U.get ⟨U.length - 1, by omega⟩ := by
    rw [getD_append_lt _ _ _ _ (by omega), List.getD_eq_getElem _ _ (by omega),
      List.get_eq_getElem]
  rw [hQ]
  exact ⟨hbi, hst⟩

theorem noAdj_ins_merge (P : Piece) (U V : List Piece) (d : Piece)
    (hU : NoAdj U) (hV : NoAdj V)
    (hPV : ∀ w, V.head? = some w → ¬ Mergeable P w)
    (hk : 0 < U.length)
    (hm : (((U ++ V).getD (U.length - 1) d).merge P).2 = true) :
    NoAdj ((U ++ V).set (U.length - 1)
      (((U ++ V).getD (U.length - 1) d).merge P).1) := by
  have hQ : (U ++ V).getD (U.length - 1) d = U.get ⟨U.length - 1, by omega⟩ := by
    rw [getD_append_lt _ _ _ _ (by omega), List.getD_eq_getElem _ _ (by omega),
      List.get_eq_getElem]
  set Q := U.get ⟨U.length - 1, by omega⟩ with hQdef
  rw [hQ] at hm ⊢
  obtain ⟨hc1, hc2⟩ := (merge_true_iff Q P).mp hm
  have hM := merge_fst_of_true Q P hm
  have hset : (U ++ V).set (U.length - 1) (Q.merge P).1
      = U.take (U.length - 1) ++ (Q.merge P).1 :: V := by
    rw [List.set_append, if_pos (by omega),
      set_eq_take_cons_drop _ _ _ (by omega)]
    have hdrop : U.drop (U.length - 1 + 1) = [] :=
      List.drop_eq_nil_of_le (by omega)
    rw [hdrop]
    simp [List.append_assoc]
  rw [hset]
  refine noAdj_glue _ _ _ (noAdj_take _ _ hU) hV ?_ ?_
  · intro w hw
    by_cases h1 : U.length - 1 = 0
    · rw [h1, List.take_zero, List.getLast?_nil] at hw
      exact absurd hw (by simp)
    · rw [getLast?_take_eq U (U.length - 1) (by omega) (by omega)] at hw
      have hww := Option.some.inj hw
      subst hww
      intro hMerg
      obtain ⟨hbi, hst⟩ := hMerg
      rw [hM] at hbi hst
      exact noAdj_pair_idx U (U.length - 1 - 1) (U.length - 1) hU (by omega)
        (by omega) ⟨hbi, hst⟩
  · intro w hw
    intro hMerg
    obtain ⟨hbi, hst⟩ := hMerg
    rw [hM] at hbi hst
    exact hPV w hw ⟨hbi.trans hc1.symm, hst⟩

theorem noAdj_insert_branches (T : PieceTable) (P : Piece) (k : Nat)
    (U V : List Piece) (hps : T.pieces = U ++ V) (hklen : k = U.length)
    (hU : NoAdj U) (hV : NoAdj V)
    (hPV : ∀ w, V.head? = some w → ¬ Mergeable P w) :
    NoAdj (if k = 0 then
        { T with pieces := T.pieces.insertIdx k P }
      else if ((T.pieces.getD (k - 1) ⟨0, 0, 0⟩).merge P).2 = true then
        { T with pieces := T.pieces.set (k - 1) ((T.pieces.getD (k - 1) ⟨0, 0, 0⟩).merge P).1 }
      else { T with pieces := T.pieces.insertIdx k P }).pieces := by
  by_cases hk0 : k = 0
  · rw [if_pos hk0]
    simp only [pieces_mk]
    rw [hps, hklen]
    exact noAdj_ins_nomerge P U V ⟨0, 0, 0⟩ hU hV hPV
      (by intro h0; exfalso; omega)
  · rw [if_neg hk0]
    by_cases hm : ((T.pieces.getD (k - 1) ⟨0, 0, 0⟩).merge P).2 = true
    · rw [if_pos hm]
      simp only [pieces_mk]
      rw [hps, hklen] at hm ⊢
      exact noAdj_ins_merge P U V ⟨0, 0, 0⟩ hU hV hPV (by omega) hm
    · rw [if_neg hm]
      simp only [pieces_mk]
      rw [hps, hklen] at hm ⊢
      exact noAdj_ins_nomerge P U V ⟨0, 0, 0⟩ hU hV hPV (fun h0 => hm)

theorem insert_NoAdj (pt : PieceTable) (pos : Nat) (s : List Char)
    (hWF : WF pt) (hadj : NoAdj pt.pieces) (hs : s ≠ []) :
    NoAdj (pt.insert pos s).pieces := by
  rw [insert_eq]
  obtain ⟨hp, hPwf, hPtext, hold, hlast⟩ := appendStep_spec pt s
  set a := pt.appendStep s with ha
  have hWF2 : WF a.1 := by
    intro p hmem
    rw [hp] at hmem
    exact (hold p (hWF p hmem)).1
  have hadj2 : NoAdj a.1.pieces := by rw [hp]; exact hadj
  have hPlen : a.2.len = s.length := by
    rw [← length_piece_text a.1 a.2 hPwf.2.2, hPtext]
  have hPltE : a.2.start < a.2.«end» := by
    have h0 : 0 < s.length := List.length_pos.mpr hs
    rw [Piece.len] at hPlen
    omega
  have hboundA : ∀ p ∈ a.1.pieces, p.buffer_index = a.2.buffer_index →
      p.«end» ≤ a.2.start := by
    intro p hmem hbi
    rw [hp] at hmem
    exact hlast p (hWF p hmem) hbi
  have hPR : ∀ R ∈ a.1.pieces, ¬ Mergeable a.2 R := by
    intro R hR hMerg
    obtain ⟨hbi, hst⟩ := hMerg
    have h2 := (hWF2 R hR).2.1
    have hbnd := hboundA R hR hbi
    omega
  obtain ⟨i, off, heq, hle, hsum, hoff⟩ := locate_spec a.1 pos
  set r2 := a.1.split (a.1.locate pos) 0 with hr2
  rw [heq] at hr2
  by_cases hi : i < a.1.pieces.length
  · have hget : a.1.pieces.get? i = some (a.1.pieces.get ⟨i, hi⟩) := by
      rw [List.get?_eq_getElem?, List.getElem?_eq_getElem hi, List.get_eq_getElem]
    set piece := a.1.pieces.get ⟨i, hi⟩ with hpiece
    have hpmem : piece ∈ a.1.pieces := List.get_mem _ _ hi
    obtain ⟨hW1, hW2, hW3⟩ := hWF2 piece hpmem
    by_cases hoffz : off = 0
    · subst hoffz
      by_cases hlen : 0 < piece.len
      · rw [split_zero_kept a.1 (Location.new i 0) 0 piece hget rfl hlen] at hr2
        simp only [Location.piece_index_new] at hr2
        have hseteq : a.1.pieces.set i (piece.after 0) = a.1.pieces := by
          have hafter : piece.after 0 = piece := rfl
          rw [hafter, set_eq_take_cons_drop _ _ _ hi]
          conv_rhs => rw [eq_take_cons_drop a.1.pieces i hi]
          rw [hpiece, List.get_eq_getElem]
        have hps : r2.1.pieces = a.1.pieces.take i ++ a.1.pieces.drop i := by
          rw [hr2]
          show a.1.pieces.set i (piece.after 0) = _
          rw [hseteq]
          exact (List.take_append_drop i _).symm
        have hklen : r2.2 = (a.1.pieces.take i).length := by
          rw [hr2]
          show i = (a.1.pieces.take i).length
          rw [List.length_take]
          omega
        exact noAdj_insert_branches r2.1 a.2 r2.2 _ _ hps hklen
          (noAdj_take _ _ hadj2) (noAdj_drop _ _ hadj2)
          (fun w hw => hPR w (head?_drop_mem _ _ _ hw))
      · rw [split_zero_removed a.1 (Location.new i 0) 0 piece hget rfl
          (by omega)] at hr2
        simp only [Location.piece_index_new] at hr2
        have hps : r2.1.pieces = a.1.pieces.take i ++ a.1.pieces.drop (i + 1) := by
          rw [hr2]
          show a.1.pieces.eraseIdx i = _
          exact List.eraseIdx_eq_take_drop_succ _ _
        have hklen : r2.2 = (a.1.pieces.take i).length := by
          rw [hr2]
          show i = (a.1.pieces.take i).length
          rw [List.length_take]
          omega
        exact noAdj_insert_branches r2.1 a.2 r2.2 _ _ hps hklen
          (noAdj_take _ _ hadj2) (noAdj_drop _ _ hadj2)
          (fun w hw => hPR w (head?_drop_mem _ _ _ hw))
    · have hoffp : 0 < off := Nat.pos_of_ne_zero hoffz
      obtain ⟨hilt, hofflt⟩ := hoff hoffp
      have hofflt2 : off < piece.len := by
        rw [getD_of_get? hget] at hofflt
        exact hofflt
      rw [split_mid_suffix a.1 (Location.new i off) 0 piece hget
        (by simp only [Location.offset_new]; exact hoffz)
        (by simp only [Location.offset_new]; exact hofflt2)
        (by simp only [Location.offset_new]; omega)] at hr2
      simp only [Location.piece_index_new, Location.offset_new] at hr2
      have hps : r2.1.pieces =
          (a.1.pieces.take i ++ [piece.before off]) ++
            (piece.after off :: a.1.pieces.drop (i + 1)) := by
        rw [hr2]
        show (a.1.pieces.set i (piece.before off)).insertIdx (i + 1)
          (piece.after (off + 0)) = _
        have hafter0 : piece.after (off + 0) = piece.after off := rfl
        have hAlen : (a.1.pieces.take i).length = i := by
          rw [List.length_take]; omega
        rw [hafter0, set_eq_take_cons_drop _ _ _ hi,
          show i + 1 = (a.1.pieces.take i).length + 1 by rw [hAlen],
          insertIdx_append_cons]
        simp [List.append_assoc]
      have hklen : r2.2 = ((a.1.pieces.take i ++ [piece.before off])).length := by
        rw [hr2]
        show i + 1 = _
        simp only [List.length_append, List.length_take, List.length_cons,
          List.length_nil]
        omega
      have hUadj : NoAdj (a.1.pieces.take i ++ [piece.before off]) := by
        refine noAdj_glue _ _ [] (noAdj_take _ _ hadj2)
          (by rw [NoAdj]; exact List.chain'_nil) ?_ ?_
        · intro w hw
          by_cases hi0 : i = 0
          · rw [hi0, List.take_zero, List.getLast?_nil] at hw
            exact absurd hw (by simp)
          · rw [getLast?_take_eq _ _ (by omega) (by omega)] at hw
            have hww := Option.some.inj hw
            subst hww
            intro hMerg
            obtain ⟨hbi, hst⟩ := hMerg
            exact noAdj_pair_idx a.1.pieces (i - 1) i hadj2 (by omega) hi
              ⟨hbi, hst⟩
        · intro w hw
          rw [List.head?_nil] at hw
          exact absurd hw (by simp)
      have hVadj : NoAdj (piece.after off :: a.1.pieces.drop (i + 1)) := by
        rw [NoAdj, List.chain'_cons']
        constructor
        · intro y hy
          by_cases hlen2 : i + 1 < a.1.pieces.length
          · rw [head?_drop_eq _ _ hlen2] at hy
            have hyy := Option.some.inj (Option.mem_def.mp hy)
            subst hyy
            intro hMerg
            obtain ⟨hbi, hst⟩ := hMerg
            exact noAdj_pair_idx a.1.pieces i (i + 1) hadj2 rfl hlen2 ⟨hbi, hst⟩
          · rw [List.head?_drop, List.getElem?_eq_none (by omega)] at hy
            exact absurd (Option.mem_def.mp hy) (by simp)
        · exact noAdj_drop _ _ hadj2
      have hPV3 : ∀ w, (piece.after off :: a.1.pieces.drop (i + 1)).head? = some w →
          ¬ Mergeable a.2 w := by
        intro w hw
        rw [List.head?_cons] at hw
        have hww := Option.some.inj hw
        subst hww
        intro hMerg
        obtain ⟨hbi, hst⟩ := hMerg
        simp only [Piece.after] at hbi hst
        have hbnd := hboundA piece hpmem hbi
        rw [Piece.len] at hofflt2
        omega
      exact noAdj_insert_branches r2.1 a.2 r2.2 _ _ hps hklen hUadj hVadj hPV3
  · have hnone : a.1.pieces.get? i = none := List.get?_eq_none.mpr (by omega)
    rw [split_none a.1 (Location.new i off) 0 hnone] at hr2
    have hps : r2.1.pieces = a.1.pieces.take i ++ a.1.pieces.drop i := by
      rw [hr2]
      show a.1.pieces = _
      exact (List.take_append_drop i _).symm
    have hklen : r2.2 = (a.1.pieces.take i).length := by
      rw [hr2]
      show (Location.new i off).piece_index = _
      rw [Location.piece_index_new, List.length_take]
      omega
    exact noAdj_insert_branches r2.1 a.2 r2.2 _ _ hps hklen
      (noAdj_take _ _ hadj2) (noAdj_drop _ _ hadj2)
      (fun w hw => hPR w (head?_drop_mem _ _ _ hw))

/-! ## The claims -/

/-- Claim C1 (confirmed): for every sequence of `insert`/`delete` operations
applied, from the empty table or from `from_string s`, both to the piece table
and to the plain-string reference model with the same clamping semantics,
`to_string` equals the reference model's content after every step (i.e. after
every prefix of the sequence). -/
theorem C1_round_trip (ops : List EditOp) (k : Nat) (s : List Char) :
    (PieceTable.new.applyOps (ops.take k)).to_string
        = refApplyOps [] (ops.take k) ∧
    ((PieceTable.from_string s).applyOps (ops.take k)).to_string
        = refApplyOps s (ops.take k) := by
  constructor
  · have h := (applyOps_spec (ops.take k) PieceTable.new WF_new).2
    rwa [to_string_new] at h
  · have h := (applyOps_spec (ops.take k) (PieceTable.from_string s)
      (WF_from_string s)).2
    rwa [to_string_from_string] at h

/-- Counterexample for C2: inserting the empty string into the empty table
leaves a zero-length piece in the sequence, refuting the claim for the
empty-string inputs it explicitly includes. -/
theorem C2_counterexample : ¬ NoEmpty (PieceTable.new.insert 0 []) := by
  decide

/-- Claim C2 (corrected): after every public operation every piece has
strictly positive length, provided every string given to `from_string` and
`insert` is nonempty.  The unconditional claim is false: `insert` of an empty
string and `from_string` of an empty string each create a zero-length piece
(see the counterexample). -/
theorem C2_no_empty_piece (pt : PieceTable) (h : ReachableNE pt) :
    NoEmpty pt :=
  (reachableNE_WF_NoEmpty pt h).2

/-- Witness for C2 on a concrete reachable state. -/
theorem C2_no_empty_piece_witness :
    NoEmpty ((PieceTable.from_string ['a', 'b']).insert 1 ['x']) :=
  C2_no_empty_piece _
    (ReachableNE.insert _ 1 ['x'] (by decide)
      (ReachableNE.from_string ['a', 'b'] (by decide)))

/-- Counterexample for C3: `delete(1, 0)` on `from_string "ab"` splits the
single piece into `[0,1)` and `[1,2)` of the same buffer and merges nothing,
leaving a mergeable adjacent pair; so the invariant does not hold in all
states reachable by public operations, and not every mutation collapses such
adjacencies before completing. -/
theorem C3_counterexample :
    ¬ NoAdj ((PieceTable.from_string ['a', 'b']).delete 1 0).pieces := by
  decide

/-- Claim C3 (corrected): `insert` preserves the no-unmerged-adjacency
invariant — if the table is well-formed and no two adjacent pieces are
mergeable then the same holds after `insert` of a nonempty string.  The
claim's quantification over all reachable states is false: `delete` can
create a mergeable adjacency (see the counterexample). -/
theorem C3_insert_no_adjacency (pt : PieceTable) (pos : Nat) (s : List Char)
    (hWF : WF pt) (hadj : NoAdj pt.pieces) (hs : s ≠ []) :
    NoAdj (pt.insert pos s).pieces :=
  insert_NoAdj pt pos s hWF hadj hs

/-- Witness for C3 at a mid-piece insertion. -/
theorem C3_insert_no_adjacency_witness :
    WF (PieceTable.from_string ['a', 'b']) ∧
    NoAdj (PieceTable.from_string ['a', 'b']).pieces ∧
    NoAdj ((PieceTable.from_string ['a', 'b']).insert 1 ['x']).pieces :=
  ⟨by decide, by decide,
    C3_insert_no_adjacency _ 1 ['x'] (by decide) (by decide) (by decide)⟩

/-- Claim C4 (code bug): `delete(1, usize::MAX)` on `from_string "ab"` makes
`split` compute `gap + loc.offset = usize::MAX + 1`, which overflows the host
integer width — in the checked model of the source's `usize` arithmetic the
operation traps (`deleteChecked` returns `none`) while an in-range length
succeeds; in the idealized unbounded-integer model the same call clamps as the
claim expects.  So the code does not satisfy "never overflows/wraps and never
crashes". -/
theorem C4_delete_length_overflow :
    (PieceTable.from_string ['a', 'b']).deleteChecked 1 usizeMax = none ∧
    ((PieceTable.from_string ['a', 'b']).deleteChecked 1 1).isSome = true ∧
    ((PieceTable.from_string ['a', 'b']).delete 1 usizeMax).to_string = ['a'] := by
  refine ⟨?_, ?_, ?_⟩ <;> decide

/-- Counterexample for C5: after `insert 2 ""` on `from_string "abcdef"` the
piece sequence is `[[0,2), [0,0) of buffer 1, [2,6)]`; position 2 equals the
cumulative length of pieces 0..=1 and is below the document length 6, yet
`locate 2` returns `(1, 0)` — the start of the zero-length piece — not
`(2, 0)` as the claim requires. -/
theorem C5_counterexample :
    sumTake ((PieceTable.from_string
      ['a', 'b', 'c', 'd', 'e', 'f']).insert 2 []).pieces 2 = 2 ∧
    2 < ((PieceTable.from_string
      ['a', 'b', 'c', 'd', 'e', 'f']).insert 2 []).docLen ∧
    ((PieceTable.from_string
      ['a', 'b', 'c', 'd', 'e', 'f']).insert 2 []).locate 2 = Location.new 1 0 ∧
    ((PieceTable.from_string
      ['a', 'b', 'c', 'd', 'e', 'f']).insert 2 []).locate 2 ≠ Location.new 2 0 := by
  decide

/-- Claim C5 (corrected): for every table with no zero-length pieces —
if `position` equals the cumulative length of pieces `0..=i` and is below the
document length, `locate` returns `(i+1, 0)`, and if `position` is at or past
the document length it returns the sentinel `(len(pieces), 0)`; `locate` is a
total function.  With zero-length pieces present (reachable via `insert` of
an empty string) both clauses fail (see the counterexample). -/
theorem C5_locate_boundary_and_sentinel (pt : PieceTable) (h : NoEmpty pt)
    (pos i : Nat) :
    (i < pt.pieces.length → pos = sumTake pt.pieces (i + 1) → pos < pt.docLen →
      pt.locate pos = Location.new (i + 1) 0) ∧
    (pt.docLen ≤ pos → pt.locate pos = Location.new pt.pieces.length 0) := by
  constructor
  · intro h1 h2 h3
    exact locate_boundary pt pos i h h1 h2 h3
  · intro h1
    exact locate_ge pt pos h h1

/-- Witness for C5: a boundary position and a past-the-end position on a
three-piece table. -/
theorem C5_locate_boundary_and_sentinel_witness :
    NoEmpty ((PieceTable.from_string ['a', 'b']).insert 1 ['x']) ∧
    ((PieceTable.from_string ['a', 'b']).insert 1 ['x']).locate 1
      = Location.new 1 0 ∧
    ((PieceTable.from_string ['a', 'b']).insert 1 ['x']).locate 5
      = Location.new 3 0 :=
  ⟨by decide,
    (C5_locate_boundary_and_sentinel _ (by decide) 1 0).1
      (by decide) (by decide) (by decide),
    (C5_locate_boundary_and_sentinel _ (by decide) 5 0).2 (by decide)⟩

/-- Claim C6 (confirmed): `split(loc, gap)` with `0 < loc.offset <
len(piece)` truncates the addressed piece in place to its prefix
`[start, start+offset)`, inserts the suffix piece `[start+offset+gap, end)`
immediately after exactly when `offset + gap < len(piece)`, and returns
`loc.piece_index + 1`. -/
theorem C6_split_interior (pt : PieceTable) (loc : Location) (gap : Nat)
    (piece : Piece) (h : pt.pieces.get? loc.piece_index = some piece)
    (h0 : 0 < loc.offset) (hlt : loc.offset < piece.len) :
    (pt.split loc gap).2 = loc.piece_index + 1 ∧
    (pt.split loc gap).1.pieces =
      (if loc.offset + gap < piece.len then
        (pt.pieces.set loc.piece_index (piece.before loc.offset)).insertIdx
          (loc.piece_index + 1) (piece.after (loc.offset + gap))
      else pt.pieces.set loc.piece_index (piece.before loc.offset)) := by
  by_cases hgap : gap + loc.offset < piece.len
  · rw [split_mid_suffix pt loc gap piece h (by omega) hlt hgap,
      if_pos (by omega)]
    exact ⟨rfl, rfl⟩
  · rw [split_mid_cut pt loc gap piece h (by omega) hlt (by omega),
      if_neg (by omega)]
    exact ⟨rfl, rfl⟩

/-- Witness for C6: splitting `"abcd"` at offset 2 with gap 1 leaves
`[0,2)` and `[3,4)` and returns insertion index 1. -/
theorem C6_split_interior_witness :
    (PieceTable.from_string ['a', 'b', 'c', 'd']).pieces.get? 0
      = some ⟨0, 0, 4⟩ ∧
    (((PieceTable.from_string ['a', 'b', 'c', 'd']).split
        (Location.new 0 2) 1).2 = 1 ∧
      ((PieceTable.from_string ['a', 'b', 'c', 'd']).split
        (Location.new 0 2) 1).1.pieces = [⟨0, 0, 2⟩, ⟨0, 3, 4⟩]) :=
  ⟨by decide,
    C6_split_interior _ (Location.new 0 2) 1 ⟨0, 0, 4⟩
      (by decide) (by decide) (by decide)⟩

/-- Claim C7 (confirmed): in every `insert`, with `k` the insertion index
returned by the split and `Q` the piece at `k - 1`, the new piece `P` is
absorbed into `Q` — replacing `Q` by a piece with `Q`'s buffer and start and
`P`'s end — exactly when `k ≠ 0` and `Q` and `P` are in the same buffer with
`Q.end = P.start` (the `Mergeable` test); otherwise `P` is inserted at `k` as
a new element.  No other element changes: there is no merge with the right
neighbor and no cascading merge. -/
theorem C7_insert_merge_rule (pt : PieceTable) (pos : Nat) (s : List Char) :
    (pt.insert pos s).pieces =
      (if ((pt.appendStep s).1.split ((pt.appendStep s).1.locate pos) 0).2 ≠ 0 ∧
          Mergeable
            (((pt.appendStep s).1.split ((pt.appendStep s).1.locate pos) 0).1.pieces.getD
              (((pt.appendStep s).1.split ((pt.appendStep s).1.locate pos) 0).2 - 1)
              ⟨0, 0, 0⟩)
            (pt.appendStep s).2 then
        ((pt.appendStep s).1.split ((pt.appendStep s).1.locate pos) 0).1.pieces.set
          (((pt.appendStep s).1.split ((pt.appendStep s).1.locate pos) 0).2 - 1)
          { buffer_index :=
              (((pt.appendStep s).1.split ((pt.appendStep s).1.locate pos) 0).1.pieces.getD
                (((pt.appendStep s).1.split ((pt.appendStep s).1.locate pos) 0).2 - 1)
                ⟨0, 0, 0⟩).buffer_index,
            start :=
              (((pt.appendStep s).1.split ((pt.appendStep s).1.locate pos) 0).1.pieces.getD
                (((pt.appendStep s).1.split ((pt.appendStep s).1.locate pos) 0).2 - 1)
                ⟨0, 0, 0⟩).start,
            «end» := (pt.appendStep s).2.«end» }
      else
        ((pt.appendStep s).1.split ((pt.appendStep s).1.locate pos) 0).1.pieces.insertIdx
          (((pt.appendStep s).1.split ((pt.appendStep s).1.locate pos) 0).2)
          (pt.appendStep s).2) := by
  rw [insert_eq]
  set a := pt.appendStep s with ha
  set r2 := a.1.split (a.1.locate pos) 0 with hr2
  set Q := r2.1.pieces.getD (r2.2 - 1) ⟨0, 0, 0⟩ with hQ
  by_cases hk0 : r2.2 = 0
  · rw [if_pos hk0, if_neg (by intro hc; exact hc.1 hk0)]
  · by_cases hm : (Q.merge a.2).2 = true
    · rw [if_neg hk0, if_pos hm,
        if_pos (⟨hk0, (merge_true_iff Q a.2).mp hm⟩ :
          r2.2 ≠ 0 ∧ Mergeable Q a.2)]
      simp only [pieces_mk]
      rw [merge_fst_of_true Q a.2 hm]
    · rw [if_neg hk0, if_neg hm,
        if_neg (fun hc => hm ((merge_true_iff Q a.2).mpr hc.2))]

/-- Counterexample for C8: on the table `from_string "ab"` followed by
`insert 2 ""` (document length 2, with a trailing zero-length piece),
`insert 5 "xyz"` and `insert 2 "xyz"` produce different piece sequences —
the resulting states are not identical, only their texts agree. -/
theorem C8_counterexample :
    ((PieceTable.from_string ['a', 'b']).insert 2 []).docLen = 2 ∧
    (((PieceTable.from_string ['a', 'b']).insert 2 []).insert 5
        ['x', 'y', 'z']).pieces ≠
      (((PieceTable.from_string ['a', 'b']).insert 2 []).insert 2
        ['x', 'y', 'z']).pieces := by
  decide

/-- Claim C8 (corrected): for `position` at or past the document length,
`insert(position, text)` has the same logical text as
`insert(document_length, text)` on every well-formed table (append-at-end);
the resulting states are identical provided the table has no zero-length
pieces.  Full state identity without that proviso is false (see the
counterexample). -/
theorem C8_insert_at_or_past_end (pt : PieceTable) (pos : Nat) (s : List Char)
    (hge : pt.docLen ≤ pos) :
    (WF pt → (pt.insert pos s).to_string
        = (pt.insert pt.docLen s).to_string) ∧
    (NoEmpty pt → pt.insert pos s = pt.insert pt.docLen s) := by
  constructor
  · intro hWF
    have hlen : pt.to_string.length = pt.docLen := by
      rw [to_string_eq_textSeg, length_textSeg pt pt.pieces hWF, docLen_eq]
    rw [insert_toString pt pos s hWF, insert_toString pt pt.docLen s hWF,
      refInsert, refInsert,
      List.take_of_length_le (by omega), List.take_of_length_le (by omega),
      List.drop_eq_nil_of_le (by omega), List.drop_eq_nil_of_le (by omega)]
  · intro hne
    exact insert_clamp_state pt pos s hne hge

/-- Witness for C8 on `from_string "ab"` (document length 2) at position 5. -/
theorem C8_insert_at_or_past_end_witness :
    (PieceTable.from_string ['a', 'b']).docLen ≤ 5 ∧
    ((PieceTable.from_string ['a', 'b']).insert 5 ['x']).to_string
      = ((PieceTable.from_string ['a', 'b']).insert
          (PieceTable.from_string ['a', 'b']).docLen ['x']).to_string ∧
    (PieceTable.from_string ['a', 'b']).insert 5 ['x']
      = (PieceTable.from_string ['a', 'b']).insert
          (PieceTable.from_string ['a', 'b']).docLen ['x'] :=
  ⟨by decide,
    (C8_insert_at_or_past_end _ 5 ['x'] (by decide)).1 (by decide),
    (C8_insert_at_or_past_end _ 5 ['x'] (by decide)).2 (by decide)⟩

/-- Counterexample for C9: on the table `from_string "ab"` followed by
`insert 2 ""` (document length 2, trailing zero-length piece),
`delete 2 1` starts at the document length yet removes the empty piece —
the piece sequence is not left unchanged. -/
theorem C9_counterexample :
    ((PieceTable.from_string ['a', 'b']).insert 2 []).docLen = 2 ∧
    (((PieceTable.from_string ['a', 'b']).insert 2 []).delete 2 1).pieces ≠
      ((PieceTable.from_string ['a', 'b']).insert 2 []).pieces := by
  decide

/-- Claim C9 (corrected): on every table with no zero-length pieces,
`delete(position, length)` with `position` at or past the document length
leaves the whole state (pieces and buffers) unchanged.  Without that proviso
the claim is false: such a delete can drop a trailing zero-length piece (see
the counterexample). -/
theorem C9_delete_past_end_noop (pt : PieceTable) (pos len : Nat)
    (hne : NoEmpty pt) (hge : pt.docLen ≤ pos) :
    pt.delete pos len = pt :=
  delete_noop pt pos len hne hge

/-- Witness for C9 on `from_string "ab"` at position 5. -/
theorem C9_delete_past_end_noop_witness :
    (PieceTable.from_string ['a', 'b']).delete 5 3
      = PieceTable.from_string ['a', 'b'] :=
  C9_delete_past_end_noop _ 5 3 (by decide) (by decide)

/-- Claim C10 (confirmed): every state reachable by public operations is
well-formed — every piece addresses an existing buffer with
`start ≤ end ≤ buffer length` — and consequently every `piece_text` slice is
fully in bounds (it has exactly `end - start` characters, so the Rust
indexing `&buffer[start..end]` cannot panic and `end - start` cannot
underflow). -/
theorem C10_reachable_pieces_in_bounds (pt : PieceTable) (h : Reachable pt) :
    WF pt ∧ TextInBounds pt := by
  have hWF := reachable_WF pt h
  refine ⟨hWF, fun p hp => ?_⟩
  rw [length_piece_text pt p (hWF p hp).2.2]
  rfl

/-- Witness for C10 on a concrete reachable state. -/
theorem C10_reachable_pieces_in_bounds_witness :
    WF ((PieceTable.from_string ['a', 'b']).insert 1 ['x']) ∧
    TextInBounds ((PieceTable.from_string ['a', 'b']).insert 1 ['x']) :=
  C10_reachable_pieces_in_bounds _
    (Reachable.insert _ 1 ['x'] (Reachable.from_string ['a', 'b']))

/-! ## The source's unit tests, reproduced against the embedding

Each test of `src/src/lib.rs` evaluates to the asserted value under the
embedding, evidence that the Lean definitions compute as the Rust does. -/

theorem test_new_has_no_buffers_or_pieces :
    PieceTable.new.pieces.length = 0 ∧ PieceTable.new.buffers.length = 0 := by
  decide

theorem test_append_to_empty :
    (PieceTable.new.insert 0 "Hello, World".toList).to_string
      = "Hello, World".toList := by
  decide

theorem test_insert_at_beginning_prepends :
    ((PieceTable.new.insert 0 "World".toList).insert 0 "Hello, ".toList).to_string
      = "Hello, World".toList := by
  decide

theorem test_insert_at_end_appends :
    ((PieceTable.new.insert 0 "Hello, ".toList).insert 7 "World".toList).to_string
      = "Hello, World".toList := by
  decide

theorem test_insert_in_middle_splits :
    ((PieceTable.new.insert 0 "Goodbye World".toList).insert 7 " cruel".toList).to_string
      = "Goodbye cruel World".toList := by
  decide

theorem test_delete_from_middle :
    ((PieceTable.from_string "Hello, World".toList).delete 5 1).to_string
      = "Hello World".toList := by
  decide

theorem test_delete_from_start :
    ((PieceTable.from_string "Hello, World".toList).delete 0 7).to_string
      = "World".toList := by
  decide

theorem test_delete_from_end :
    ((PieceTable.from_string "Hello, World".toList).delete 5 7).to_string
      = "Hello".toList ∧
    ((PieceTable.from_string "Hello, World".toList).delete 5 7).pieces.length = 1 := by
  decide

theorem test_delete_whole_piece :
    ((PieceTable.from_string "Hello, World".toList).delete 0 12).to_string = [] ∧
    ((PieceTable.from_string "Hello, World".toList).delete 0 12).pieces.length = 0 := by
  decide

theorem test_delete_multiple_pieces :
    ((PieceTable.from_string "Hello World".toList).insert 5 ",".toList).pieces.length
      = 3 ∧
    (((PieceTable.from_string "Hello World".toList).insert 5 ",".toList).delete
        2 10).to_string = "He".toList ∧
    (((PieceTable.from_string "Hello World".toList).insert 5 ",".toList).delete
        2 10).pieces.length = 1 := by
  decide

theorem test_insert_past_end_inserts_at_end :
    ((PieceTable.from_string "Hello, World".toList).insert 500 "Boom".toList).to_string
      = "Hello, WorldBoom".toList := by
  decide

theorem test_delete_past_end_does_nothing :
    ((PieceTable.from_string "Hello, World".toList).delete 500 1).to_string
      = "Hello, World".toList := by
  decide

theorem test_delete_past_the_end_deletes_to_end :
    ((PieceTable.from_string "Hello, World".toList).delete 5 500).to_string
      = "Hello".toList := by
  decide
